import Mathlib

/-!
Verification of the StreamSaver chunked-upload server (src/server.js).

The server state is embedded shallowly: the two in-memory maps
(`sessions`, `liveStreams`), the staging area `uploads/tmp` (one
directory per upload id, holding `chunk-<i>.part` files and a
`meta.json` snapshot) and the output area `uploads/final` are all
modelled as association lists.  Byte buffers are lists of naturals.
External inputs of the runtime (fresh UUIDs from `crypto.randomUUID`,
the clock `Date.now()`, request bodies) are passed as explicit
parameters.  Each Express route handler becomes a pure function from
a server state and its inputs to a response value and a new state.
-/

/-- Raw byte payloads (`Buffer` contents). -/
abbrev Bytes := List Nat

/-! ### Association lists (the `Map`s and directories of the server) -/

/-- Lookup in an association list (first binding wins). -/
def findA {α β : Type} [DecidableEq α] (k : α) : List (α × β) → Option β
  | [] => none
  | (k', v) :: rest => if k' = k then some v else findA k rest

/-- Remove every binding of a key. -/
def eraseA {α β : Type} [DecidableEq α] (k : α) (l : List (α × β)) : List (α × β) :=
  l.filter (fun p => decide (p.1 ≠ k))

/-- Overwriting insert: the semantics of `Map.set` and of rewriting a file. -/
def insertA {α β : Type} [DecidableEq α] (k : α) (v : β) (l : List (α × β)) : List (α × β) :=
  (k, v) :: eraseA k l

/-! ### Sorting (the JavaScript `Array.prototype.sort` calls) -/

/-- Insert into a sorted list, in front of the first element it may precede. -/
def insertLe {α : Type} (le : α → α → Bool) (a : α) : List α → List α
  | [] => [a]
  | b :: rest => if le a b then a :: b :: rest else b :: insertLe le a rest

/-- Insertion sort; extensionally equal to the JS numeric sort used by the server. -/
def sortLe {α : Type} (le : α → α → Bool) : List α → List α
  | [] => []
  | a :: rest => insertLe le a (sortLe le rest)

/-- Concatenation of a list of byte buffers. -/
def concatBytes : List Bytes → Bytes
  | [] => []
  | b :: rest => b ++ concatBytes rest

/-- Total size of a list of payloads. -/
def sumLens (l : List Bytes) : Nat := (l.map List.length).sum

/-! ### Data model -/

/-- An upload session: the record built by `POST /api/uploads/init` and stored
in the `sessions` map and in `meta.json`. -/
structure Session where
  uploadId : String
  originalName : String
  totalSize : Nat
  totalChunks : Nat
  mimeType : String
  createdAt : String
  receivedChunks : List Nat
  deriving DecidableEq

/-- A staging directory `uploads/tmp/<uploadId>`: an optional `meta.json`
snapshot plus one `chunk-<i>.part` file per stored index. -/
structure SessionDir where
  meta : Option Session
  chunks : List (Nat × Bytes)
  deriving DecidableEq

/-- A live capture session (`liveStreams` map entry); the open write handle is
represented by the name of the growing file in the final area. -/
structure LiveStream where
  streamId : String
  finalName : String
  mimeType : String
  chunkCount : Nat
  bytesWritten : Nat
  startedAt : Nat
  deriving DecidableEq

/-- The whole server state.  `final` maps an artifact name to its bytes and
its modification time. -/
structure ServerState where
  sessions : List (String × Session)
  liveStreams : List (String × LiveStream)
  tmp : List (String × SessionDir)
  final : List (String × (Bytes × Nat))
  deriving DecidableEq

/-- A server that has just started: both maps empty, both directories empty. -/
def emptyState : ServerState := ⟨[], [], [], []⟩

/-! ### Helpers from server.js -/

/-- `safeChar` keeps `[a-zA-Z0-9._-]` and replaces everything else by an
underscore, as the `replace` regex in `safeName` does. -/
def safeChar (c : Char) : Char :=
  if c.isAlphanum ∨ c = '.' ∨ c = '_' ∨ c = '-' then c else '_'

/-- `safeName` from server.js: `(name || 'video.bin')` sanitised. -/
def safeName (name : String) : String :=
  String.mk ((if name = "" then "video.bin" else name).data.map safeChar)

/-- The final artifact name template used by both the merge engine and the
live-stream init route. -/
def finalNameFor (now : Nat) (name : String) : String :=
  Nat.repr now ++ "-" ++ safeName name

/-- The staging directory of an upload id (`getSessionDir`), empty when the
directory does not exist yet. -/
def sessionDir (st : ServerState) (uploadId : String) : SessionDir :=
  (findA uploadId st.tmp).getD { meta := none, chunks := [] }

/-- `writeSessionMeta`: create the staging directory if needed and rewrite
`meta.json`. -/
def writeSessionMeta (st : ServerState) (uploadId : String) (meta : Session) : ServerState :=
  { st with tmp := insertA uploadId { sessionDir st uploadId with meta := some meta } st.tmp }

/-- `readSessionMeta`: the `meta.json` snapshot of an upload id, if any. -/
def readSessionMeta (st : ServerState) (uploadId : String) : Option Session :=
  (findA uploadId st.tmp).bind (fun d => d.meta)

/-- The write of `chunk-<index>.part` done by the chunk route. -/
def storeChunk (st : ServerState) (uploadId : String) (chunkIndex : Nat) (buf : Bytes) :
    ServerState :=
  let d := sessionDir st uploadId
  { st with tmp := insertA uploadId { d with chunks := insertA chunkIndex buf d.chunks } st.tmp }

/-- The `includes / push / sort` sequence updating `receivedChunks`. -/
def recordIndex (received : List Nat) (i : Nat) : List Nat :=
  if i ∈ received then received
  else sortLe (fun a b => decide (a ≤ b)) (received ++ [i])

/-- The chunk-reading loop of `mergeChunks`, over an explicit list of indices.
A missing chunk file makes the read stream error: the result is `error` and
carries the bytes already piped to the output stream before the failure. -/
def mergeLoop (chunks : List (Nat × Bytes)) : List Nat → Except Bytes Bytes
  | [] => .ok []
  | i :: rest =>
    match findA i chunks with
    | none => .error []
    | some b =>
      match mergeLoop chunks rest with
      | .ok tail => .ok (b ++ tail)
      | .error done => .error (b ++ done)

/-- The bytes produced by merging chunks `0 .. total-1` of a staging
directory. -/
def mergeBytes (chunks : List (Nat × Bytes)) (total : Nat) : Except Bytes Bytes :=
  mergeLoop chunks (List.range total)

/-- `mergeChunks(meta)`: derives the final name from `Date.now()` and the
sanitised original name, then concatenates chunks `0 .. totalChunks-1` of the
directory keyed by `meta.uploadId`, strictly in index order. -/
def mergeChunks (st : ServerState) (now : Nat) (meta : Session) :
    String × Except Bytes Bytes :=
  (finalNameFor now meta.originalName,
   mergeBytes (sessionDir st meta.uploadId).chunks meta.totalChunks)

/-! ### Route handlers -/

/-- Response of `POST /api/uploads/init`. -/
inductive UploadInitResult where
  | invalidFilename
  | created (uploadId : String)
  deriving DecidableEq

/-- `POST /api/uploads/init`.  `newId` is the fresh `crypto.randomUUID()`. -/
def uploadInit (st : ServerState) (newId : String) (filename : Option String)
    (totalSize totalChunks : Nat) (mimeType createdAt : String) :
    UploadInitResult × ServerState :=
  match filename with
  | none => (.invalidFilename, st)
  | some f =>
    if f = "" then (.invalidFilename, st)
    else
      let session : Session :=
        { uploadId := newId, originalName := safeName f, totalSize := totalSize,
          totalChunks := totalChunks, mimeType := mimeType, createdAt := createdAt,
          receivedChunks := [] }
      let st1 := { st with sessions := insertA newId session st.sessions }
      (.created newId, writeSessionMeta st1 newId session)

/-- The repeated lookup pattern of the status and chunk routes: in-memory map
first, then recovery from the durable `meta.json` snapshot (re-registering the
recovered session), else not found. -/
def resolveSession (st : ServerState) (uploadId : String) :
    Option (Session × ServerState) :=
  match findA uploadId st.sessions with
  | some s => some (s, st)
  | none =>
    match readSessionMeta st uploadId with
    | some s => some (s, { st with sessions := insertA uploadId s st.sessions })
    | none => none

/-- Body of the status response. -/
structure StatusInfo where
  uploadId : String
  totalChunks : Nat
  receivedChunks : List Nat
  complete : Bool
  deriving DecidableEq

/-- Response of `GET /api/uploads/:uploadId/status`. -/
inductive StatusResult where
  | notFound
  | ok (info : StatusInfo)
  deriving DecidableEq

/-- `GET /api/uploads/:uploadId/status`. -/
def getStatus (st : ServerState) (uploadId : String) : StatusResult × ServerState :=
  match resolveSession st uploadId with
  | none => (.notFound, st)
  | some (s, st') =>
    (.ok { uploadId := uploadId, totalChunks := s.totalChunks,
           receivedChunks := s.receivedChunks,
           complete := decide (s.receivedChunks.length = s.totalChunks) }, st')

/-- Response of `POST /api/uploads/:uploadId/chunk`.  `mergeFailed` is the
case in which `mergeChunks` rejects: the async handler rethrows and no JSON
response is produced. -/
inductive ChunkResult where
  | missingFile
  | invalidIndex
  | notFound
  | mergeFailed
  | accepted (index received totalChunks : Nat) (complete : Bool) (output : Option String)
  deriving DecidableEq

/-- The state after the chunk file has been written and the updated session
record has been put back into the in-memory map. -/
def recordStage (st : ServerState) (uploadId : String) (chunkIndex : Nat) (buf : Bytes)
    (session1 : Session) : ServerState :=
  let st1 := storeChunk st uploadId chunkIndex buf
  { st1 with sessions := insertA uploadId session1 st1.sessions }

/-- The part of the chunk route after the session has been resolved: store the
chunk file, record the index, and either merge (when the received count
reaches `totalChunks`) or persist the updated snapshot. -/
def submitChunkBody (st : ServerState) (now : Nat) (uploadId : String)
    (chunkIndex : Nat) (buf : Bytes) (session : Session) : ChunkResult × ServerState :=
  let session1 := { session with receivedChunks := recordIndex session.receivedChunks chunkIndex }
  let st2 := recordStage st uploadId chunkIndex buf session1
  if session1.receivedChunks.length = session1.totalChunks then
    match mergeChunks st2 now session1 with
    | (finalName, .ok bytes) =>
      let st3 := { st2 with final := insertA finalName (bytes, now) st2.final }
      (.accepted chunkIndex session1.receivedChunks.length session1.totalChunks true
         (some finalName),
       { st3 with tmp := eraseA uploadId st3.tmp, sessions := eraseA uploadId st3.sessions })
    | (finalName, .error done) =>
      (.mergeFailed, { st2 with final := insertA finalName (done, now) st2.final })
  else
    (.accepted chunkIndex session1.receivedChunks.length session1.totalChunks false none,
     writeSessionMeta st2 uploadId session1)

/-- `POST /api/uploads/:uploadId/chunk`.  `index` is `Number(req.body.index)`
(`none` models `NaN`), `file` the multer payload. -/
def submitChunk (st : ServerState) (now : Nat) (uploadId : String)
    (index : Option Int) (file : Option Bytes) : ChunkResult × ServerState :=
  match file with
  | none => (.missingFile, st)
  | some buf =>
    match index with
    | none => (.invalidIndex, st)
    | some idx =>
      if idx < 0 then (.invalidIndex, st)
      else
        match resolveSession st uploadId with
        | none => (.notFound, st)
        | some (session, st') => submitChunkBody st' now uploadId idx.toNat buf session

/-- Response of `POST /api/streams/init`. -/
inductive StreamInitResult where
  | created (streamId file : String)
  deriving DecidableEq

/-- `POST /api/streams/init`: derive the artifact name, open the output file
in append mode (`flags: 'a'` creates the file only when it does not exist)
and register the live session. -/
def streamInit (st : ServerState) (now : Nat) (newId : String)
    (filename mimeType : Option String) : StreamInitResult × ServerState :=
  let fname := filename.getD "live.webm"
  let mt := mimeType.getD "video/webm"
  let finalName := finalNameFor now fname
  let final1 :=
    match findA finalName st.final with
    | some _ => st.final
    | none => insertA finalName ([], now) st.final
  let stream : LiveStream :=
    { streamId := newId, finalName := finalName, mimeType := mt,
      chunkCount := 0, bytesWritten := 0, startedAt := now }
  (.created newId finalName,
   { st with final := final1, liveStreams := insertA newId stream st.liveStreams })

/-- Response of `POST /api/streams/:streamId/chunk`. -/
inductive StreamChunkResult where
  | notFound
  | missingFile
  | accepted (receivedChunks bytesWritten : Nat)
  deriving DecidableEq

/-- `POST /api/streams/:streamId/chunk`: append the payload to the open file
in arrival order and bump the counters. -/
def streamAppend (st : ServerState) (now : Nat) (streamId : String)
    (file : Option Bytes) : StreamChunkResult × ServerState :=
  match findA streamId st.liveStreams with
  | none => (.notFound, st)
  | some state =>
    match file with
    | none => (.missingFile, st)
    | some buf =>
      let prior := ((findA state.finalName st.final).map Prod.fst).getD []
      let state1 := { state with chunkCount := state.chunkCount + 1,
                                 bytesWritten := state.bytesWritten + buf.length }
      (.accepted state1.chunkCount state1.bytesWritten,
       { st with final := insertA state.finalName (prior ++ buf, now) st.final,
                 liveStreams := insertA streamId state1 st.liveStreams })

/-- Response of `POST /api/streams/:streamId/finish`. -/
inductive StreamFinishResult where
  | notFound
  | ok (output : String) (bytesWritten chunks : Nat)
  deriving DecidableEq

/-- `POST /api/streams/:streamId/finish`: close the stream, drop the live
session, return the accounting. -/
def streamFinish (st : ServerState) (streamId : String) :
    StreamFinishResult × ServerState :=
  match findA streamId st.liveStreams with
  | none => (.notFound, st)
  | some state =>
    (.ok state.finalName state.bytesWritten state.chunkCount,
     { st with liveStreams := eraseA streamId st.liveStreams })

/-- One row of the `GET /api/files` response. -/
structure FileEntry where
  name : String
  sizeBytes : Nat
  modifiedAt : Nat
  deriving DecidableEq

/-- The catalog entry of one file of the final area. -/
def entryOf (f : String × (Bytes × Nat)) : FileEntry :=
  { name := f.1, sizeBytes := f.2.1.length, modifiedAt := f.2.2 }

/-- `GET /api/files`: stat every file of the final area and sort by
modification time, most recent first. -/
def listFiles (st : ServerState) : List FileEntry :=
  sortLe (fun a b => decide (b.modifiedAt ≤ a.modifiedAt)) (st.final.map entryOf)

/-! ### Drivers: sequences of requests -/

/-- Submit a list of (index, payload) chunks to one upload session, collecting
every response. -/
def submitRun (st : ServerState) (now : Nat) (u : String) :
    List (Nat × Bytes) → List ChunkResult × ServerState
  | [] => ([], st)
  | (i, b) :: rest =>
    let step := submitChunk st now u (some (i : Int)) (some b)
    let next := submitRun step.2 now u rest
    (step.1 :: next.1, next.2)

/-- Append a list of payloads to one live stream, collecting every response. -/
def streamRun (st : ServerState) (now : Nat) (sid : String) :
    List Bytes → List StreamChunkResult × ServerState
  | [] => ([], st)
  | b :: rest =>
    let step := streamAppend st now sid (some b)
    let next := streamRun step.2 now sid rest
    (step.1 :: next.1, next.2)

/-- The chunk files written by a run, applied to an initial directory
content. -/
def storeAll (c : List (Nat × Bytes)) (l : List (Nat × Bytes)) : List (Nat × Bytes) :=
  l.foldl (fun acc p => insertA p.1 p.2 acc) c

/-- The payload a run associates to an index. -/
def payFn (l : List (Nat × Bytes)) (j : Nat) : Bytes := (findA j l).getD []

/-- The completion flag of a chunk response, when one was produced. -/
def resultComplete : ChunkResult → Option Bool
  | .accepted _ _ _ c _ => some c
  | _ => none

/-- Whether a chunk response shows that the merge branch ran (successfully or
not). -/
def resultMergeAttempt : ChunkResult → Bool
  | .mergeFailed => true
  | .accepted _ _ _ c _ => c
  | _ => false

/-- Decimal value of a digit string; inverts the decimal rendering used by
the `Date.now()` prefix of artifact names. -/
def parseDigits (l : List Char) : Nat :=
  l.foldl (fun acc c => acc * 10 + (c.toNat - 48)) 0

/-! ### Association-list lemmas -/

theorem findA_cons {α β : Type} [DecidableEq α] (a : α) (b : β) (rest : List (α × β)) (k : α) :
    findA k ((a, b) :: rest) = if a = k then some b else findA k rest := rfl

theorem eraseA_cons {α β : Type} [DecidableEq α] (a : α) (b : β) (rest : List (α × β)) (k : α) :
    eraseA k ((a, b) :: rest) = if a = k then eraseA k rest else (a, b) :: eraseA k rest := by
  by_cases h : a = k <;> simp [eraseA, List.filter_cons, h]

theorem findA_eraseA_self {α β : Type} [DecidableEq α] (k : α) (l : List (α × β)) :
    findA k (eraseA k l) = none := by
  induction l with
  | nil => rfl
  | cons p rest ih =>
    obtain ⟨a, b⟩ := p
    rw [eraseA_cons]
    by_cases h : a = k
    · simpa [h] using ih
    · simpa [findA_cons, h] using ih

theorem findA_eraseA_ne {α β : Type} [DecidableEq α] {k k' : α} (l : List (α × β))
    (h : k' ≠ k) : findA k' (eraseA k l) = findA k' l := by
  induction l with
  | nil => rfl
  | cons p rest ih =>
    obtain ⟨a, b⟩ := p
    rw [eraseA_cons, findA_cons]
    by_cases ha : a = k
    · have hne : ¬a = k' := fun hh => h (ha ▸ hh ▸ rfl)
      rw [if_pos ha, if_neg hne, ih]
    · rw [if_neg ha, findA_cons]
      by_cases hb : a = k' <;> simp [hb, ih]

theorem findA_insertA_self {α β : Type} [DecidableEq α] (k : α) (v : β) (l : List (α × β)) :
    findA k (insertA k v l) = some v := by
  simp [insertA, findA_cons]

theorem findA_insertA_ne {α β : Type} [DecidableEq α] {k k' : α} (v : β) (l : List (α × β))
    (h : k' ≠ k) : findA k' (insertA k v l) = findA k' l := by
  rw [insertA, findA_cons, if_neg (fun hh => h hh.symm), findA_eraseA_ne l h]

theorem eraseA_idem {α β : Type} [DecidableEq α] (k : α) (l : List (α × β)) :
    eraseA k (eraseA k l) = eraseA k l := by
  simp [eraseA, List.filter_filter]

theorem eraseA_insertA {α β : Type} [DecidableEq α] (k : α) (v : β) (l : List (α × β)) :
    eraseA k (insertA k v l) = eraseA k l := by
  rw [insertA, eraseA_cons, if_pos rfl, eraseA_idem]

theorem insertA_insertA {α β : Type} [DecidableEq α] (k : α) (v w : β) (l : List (α × β)) :
    insertA k v (insertA k w l) = insertA k v l := by
  simp only [insertA]
  rw [eraseA_cons, if_pos rfl, eraseA_idem]

theorem eraseA_of_findA_none {α β : Type} [DecidableEq α] {k : α} {l : List (α × β)}
    (h : findA k l = none) : eraseA k l = l := by
  induction l with
  | nil => rfl
  | cons p rest ih =>
    obtain ⟨a, b⟩ := p
    rw [findA_cons] at h
    by_cases ha : a = k
    · simp [ha] at h
    · rw [if_neg ha] at h
      rw [eraseA_cons, if_neg ha, ih h]

theorem insertA_of_findA_none {α β : Type} [DecidableEq α] {k : α} (v : β) {l : List (α × β)}
    (h : findA k l = none) : insertA k v l = (k, v) :: l := by
  rw [insertA, eraseA_of_findA_none h]

theorem findA_eq_none_iff {α β : Type} [DecidableEq α] (k : α) (l : List (α × β)) :
    findA k l = none ↔ k ∉ l.map Prod.fst := by
  induction l with
  | nil => simp [findA]
  | cons p rest ih =>
    obtain ⟨a, b⟩ := p
    rw [findA_cons]
    by_cases ha : a = k
    · simp [ha]
    · simp only [if_neg ha, ih, List.map_cons, List.mem_cons]
      constructor
      · intro hnot hor
        rcases hor with hor | hor
        · exact ha hor.symm
        · exact hnot hor
      · intro hnot hmem
        exact hnot (Or.inr hmem)

theorem findA_isSome_of_mem_keys {α β : Type} [DecidableEq α] {k : α} {l : List (α × β)}
    (h : k ∈ l.map Prod.fst) : ∃ b, findA k l = some b := by
  cases hf : findA k l with
  | none => exact absurd h ((findA_eq_none_iff k l).mp hf)
  | some b => exact ⟨b, rfl⟩

theorem findA_append_none {α β : Type} [DecidableEq α] {k : α} {l₁ : List (α × β)}
    (l₂ : List (α × β)) (h : findA k l₁ = none) : findA k (l₁ ++ l₂) = findA k l₂ := by
  induction l₁ with
  | nil => rfl
  | cons p rest ih =>
    obtain ⟨a, b⟩ := p
    rw [findA_cons] at h
    by_cases ha : a = k
    · simp [ha] at h
    · rw [if_neg ha] at h
      rw [List.cons_append, findA_cons, if_neg ha, ih h]

theorem findA_append_some {α β : Type} [DecidableEq α] {k : α} {b : β} {l₁ : List (α × β)}
    (l₂ : List (α × β)) (h : findA k l₁ = some b) : findA k (l₁ ++ l₂) = some b := by
  induction l₁ with
  | nil => simp [findA] at h
  | cons p rest ih =>
    obtain ⟨a, c⟩ := p
    rw [findA_cons] at h
    by_cases ha : a = k
    · rw [if_pos ha] at h
      rw [List.cons_append, findA_cons, if_pos ha, h]
    · rw [if_neg ha] at h
      rw [List.cons_append, findA_cons, if_neg ha, ih h]

theorem findA_storeAll_none {k : Nat} {l : List (Nat × Bytes)} (c : List (Nat × Bytes))
    (h : findA k l = none) : findA k (storeAll c l) = findA k c := by
  induction l generalizing c with
  | nil => rfl
  | cons p rest ih =>
    obtain ⟨a, b⟩ := p
    rw [findA_cons] at h
    by_cases ha : a = k
    · simp [ha] at h
    · rw [if_neg ha] at h
      have step : storeAll c ((a, b) :: rest) = storeAll (insertA a b c) rest := rfl
      rw [step, ih _ h, findA_insertA_ne _ _ (fun hh => ha hh.symm)]

theorem findA_storeAll_some {k : Nat} {b : Bytes} {l : List (Nat × Bytes)}
    (c : List (Nat × Bytes)) (hnd : (l.map Prod.fst).Nodup) (h : findA k l = some b) :
    findA k (storeAll c l) = some b := by
  induction l generalizing c with
  | nil => simp [findA] at h
  | cons p rest ih =>
    obtain ⟨a, v⟩ := p
    simp only [List.map_cons, List.nodup_cons] at hnd
    rw [findA_cons] at h
    have step : storeAll c ((a, v) :: rest) = storeAll (insertA a v c) rest := rfl
    by_cases ha : a = k
    · subst ha
      rw [if_pos rfl] at h
      have hrest : findA a rest = none := by
        rw [findA_eq_none_iff]
        exact fun hk => hnd.1 hk
      rw [step, findA_storeAll_none _ hrest, findA_insertA_self]
      exact h
    · rw [if_neg ha] at h
      rw [step, ih _ hnd.2 h]

/-! ### Sorting lemmas -/

theorem insertLe_perm {α : Type} (le : α → α → Bool) (a : α) (l : List α) :
    (insertLe le a l).Perm (a :: l) := by
  induction l with
  | nil => exact List.Perm.refl _
  | cons b rest ih =>
    rw [insertLe]
    by_cases h : le a b = true
    · rw [if_pos h]
    · rw [if_neg h]
      exact (ih.cons b).trans (List.Perm.swap a b rest)

theorem sortLe_perm {α : Type} (le : α → α → Bool) (l : List α) :
    (sortLe le l).Perm l := by
  induction l with
  | nil => exact List.Perm.refl _
  | cons a rest ih =>
    exact (insertLe_perm le a (sortLe le rest)).trans (ih.cons a)

theorem insertLe_pairwise {α : Type} (le : α → α → Bool)
    (htot : ∀ a b, le a b = true ∨ le b a = true)
    (htrans : ∀ a b c, le a b = true → le b c = true → le a c = true)
    (a : α) (l : List α) (h : l.Pairwise (fun x y => le x y = true)) :
    (insertLe le a l).Pairwise (fun x y => le x y = true) := by
  induction l with
  | nil => simp [insertLe]
  | cons b rest ih =>
    rw [List.pairwise_cons] at h
    rw [insertLe]
    by_cases hab : le a b = true
    · rw [if_pos hab]
      refine List.pairwise_cons.mpr ⟨?_, List.pairwise_cons.mpr h⟩
      intro c hc
      rcases List.mem_cons.mp hc with hc | hc
      · exact hc ▸ hab
      · exact htrans a b c hab (h.1 c hc)
    · rw [if_neg hab]
      refine List.pairwise_cons.mpr ⟨?_, ih h.2⟩
      intro c hc
      have : c ∈ a :: rest := (insertLe_perm le a rest).mem_iff.mp hc
      rcases List.mem_cons.mp this with hc' | hc'
      · rw [hc']
        rcases htot a b with ht | ht
        · exact absurd ht hab
        · exact ht
      · exact h.1 c hc'

theorem sortLe_pairwise {α : Type} (le : α → α → Bool)
    (htot : ∀ a b, le a b = true ∨ le b a = true)
    (htrans : ∀ a b c, le a b = true → le b c = true → le a c = true)
    (l : List α) : (sortLe le l).Pairwise (fun x y => le x y = true) := by
  induction l with
  | nil => simp [sortLe]
  | cons a rest ih => exact insertLe_pairwise le htot htrans a (sortLe le rest) ih

/-! ### Lemmas about recordIndex -/

theorem recordIndex_of_mem {received : List Nat} {i : Nat} (h : i ∈ received) :
    recordIndex received i = received := by
  rw [recordIndex, if_pos h]

theorem recordIndex_perm_of_not_mem {received : List Nat} {i : Nat} (h : i ∉ received) :
    (recordIndex received i).Perm (received ++ [i]) := by
  rw [recordIndex, if_neg h]
  exact sortLe_perm _ _

theorem recordIndex_length_of_not_mem {received : List Nat} {i : Nat} (h : i ∉ received) :
    (recordIndex received i).length = received.length + 1 := by
  rw [(recordIndex_perm_of_not_mem h).length_eq, List.length_append, List.length_singleton]

theorem mem_recordIndex_iff (received : List Nat) (i j : Nat) :
    j ∈ recordIndex received i ↔ j ∈ received ∨ j = i := by
  by_cases h : i ∈ received
  · rw [recordIndex_of_mem h]
    constructor
    · exact Or.inl
    · rintro (hj | rfl)
      · exact hj
      · exact h
  · rw [(recordIndex_perm_of_not_mem h).mem_iff]
    simp

theorem recordIndex_mem_self (received : List Nat) (i : Nat) :
    i ∈ recordIndex received i := by
  rw [mem_recordIndex_iff]
  exact Or.inr rfl

theorem recordIndex_nodup {received : List Nat} (i : Nat) (h : received.Nodup) :
    (recordIndex received i).Nodup := by
  by_cases hm : i ∈ received
  · rw [recordIndex_of_mem hm]
    exact h
  · rw [(recordIndex_perm_of_not_mem hm).nodup_iff]
    simpa [List.nodup_append] using ⟨h, fun hh => hm hh⟩

theorem recordIndex_length_pos (received : List Nat) (i : Nat) :
    0 < (recordIndex received i).length :=
  List.length_pos.mpr (List.ne_nil_of_mem (recordIndex_mem_self received i))

/-! ### Pigeonhole for complete received-sets, and merge-loop lemmas -/

theorem mem_of_nodup_length_eq {l : List Nat} {n : Nat} (hnd : l.Nodup)
    (hlt : ∀ i ∈ l, i < n) (hlen : l.length = n) : ∀ i, i < n → i ∈ l := by
  intro i hi
  have hsub : l.toFinset ⊆ Finset.range n := by
    intro x hx
    exact Finset.mem_range.mpr (hlt x (List.mem_toFinset.mp hx))
  have hcard : (Finset.range n).card ≤ l.toFinset.card := by
    rw [List.toFinset_card_of_nodup hnd, hlen, Finset.card_range]
  have heq := Finset.eq_of_subset_of_card_le hsub hcard
  have : i ∈ l.toFinset := heq.symm ▸ Finset.mem_range.mpr hi
  exact List.mem_toFinset.mp this

theorem concatBytes_append (l₁ l₂ : List Bytes) :
    concatBytes (l₁ ++ l₂) = concatBytes l₁ ++ concatBytes l₂ := by
  induction l₁ with
  | nil => rfl
  | cons b rest ih => simp [concatBytes, ih]

theorem concatBytes_length (l : List Bytes) :
    (concatBytes l).length = sumLens l := by
  induction l with
  | nil => rfl
  | cons b rest ih => simp [concatBytes, sumLens, ih, List.length_append]
    
theorem mergeLoop_ok_of_present (chunks : List (Nat × Bytes)) (pay : Nat → Bytes) :
    ∀ L : List Nat, (∀ i ∈ L, findA i chunks = some (pay i)) →
      mergeLoop chunks L = .ok (concatBytes (L.map pay)) := by
  intro L
  induction L with
  | nil => intro _; rfl
  | cons i rest ih =>
    intro h
    have hi := h i (List.mem_cons_self i rest)
    have hrest := ih (fun j hj => h j (List.mem_cons_of_mem i hj))
    rw [mergeLoop, hi, hrest]
    rfl

theorem mergeBytes_ok_of_present (chunks : List (Nat × Bytes)) (pay : Nat → Bytes)
    (total : Nat) (h : ∀ i, i < total → findA i chunks = some (pay i)) :
    mergeBytes chunks total = .ok (concatBytes ((List.range total).map pay)) :=
  mergeLoop_ok_of_present chunks pay (List.range total)
    (fun i hi => h i (List.mem_range.mp hi))

/-! ### Unfolding lemmas for the chunk route -/

theorem resolveSession_mem {st : ServerState} {u : String} {s : Session}
    (h : findA u st.sessions = some s) : resolveSession st u = some (s, st) := by
  simp [resolveSession, h]

theorem resolveSession_recover {st : ServerState} {u : String} {s : Session}
    (h1 : findA u st.sessions = none) (h2 : readSessionMeta st u = some s) :
    resolveSession st u = some (s, { st with sessions := insertA u s st.sessions }) := by
  simp [resolveSession, h1, h2]

theorem resolveSession_none {st : ServerState} {u : String}
    (h1 : findA u st.sessions = none) (h2 : readSessionMeta st u = none) :
    resolveSession st u = none := by
  simp [resolveSession, h1, h2]

theorem submitChunk_natIdx (st : ServerState) (now : Nat) (u : String) (i : Nat) (b : Bytes) :
    submitChunk st now u (some (i : Int)) (some b) =
      match resolveSession st u with
      | none => (.notFound, st)
      | some (session, st') => submitChunkBody st' now u i b session := by
  have h0 : ¬ ((i : Int) < 0) := Int.not_lt.mpr (Int.natCast_nonneg i)
  simp only [submitChunk, if_neg h0, Int.toNat_natCast]

theorem submitChunkBody_else (st : ServerState) (now : Nat) (u : String) (i : Nat) (b : Bytes)
    (session : Session)
    (h : ¬ (recordIndex session.receivedChunks i).length = session.totalChunks) :
    submitChunkBody st now u i b session =
      (.accepted i (recordIndex session.receivedChunks i).length session.totalChunks false none,
       writeSessionMeta
         (recordStage st u i b { session with receivedChunks := recordIndex session.receivedChunks i })
         u { session with receivedChunks := recordIndex session.receivedChunks i }) := by
  simp only [submitChunkBody]
  split
  · next hcond => exact absurd hcond h
  · rfl

theorem submitChunkBody_merge_ok (st : ServerState) (now : Nat) (u : String) (i : Nat)
    (b : Bytes) (session : Session) (bytes : Bytes)
    (h : (recordIndex session.receivedChunks i).length = session.totalChunks)
    (hok : mergeBytes
        (sessionDir
          (recordStage st u i b { session with receivedChunks := recordIndex session.receivedChunks i })
          session.uploadId).chunks
        session.totalChunks = .ok bytes) :
    submitChunkBody st now u i b session =
      (.accepted i (recordIndex session.receivedChunks i).length session.totalChunks true
         (some (finalNameFor now session.originalName)),
       { recordStage st u i b { session with receivedChunks := recordIndex session.receivedChunks i } with
           final := insertA (finalNameFor now session.originalName) (bytes, now)
             (recordStage st u i b { session with receivedChunks := recordIndex session.receivedChunks i }).final,
           tmp := eraseA u
             (recordStage st u i b { session with receivedChunks := recordIndex session.receivedChunks i }).tmp,
           sessions := eraseA u
             (recordStage st u i b { session with receivedChunks := recordIndex session.receivedChunks i }).sessions }) := by
  simp only [submitChunkBody, mergeChunks]
  split
  · rw [hok]
  · next hcond => exact absurd h hcond

theorem submitChunkBody_merge_error (st : ServerState) (now : Nat) (u : String) (i : Nat)
    (b : Bytes) (session : Session) (done : Bytes)
    (h : (recordIndex session.receivedChunks i).length = session.totalChunks)
    (herr : mergeBytes
        (sessionDir
          (recordStage st u i b { session with receivedChunks := recordIndex session.receivedChunks i })
          session.uploadId).chunks
        session.totalChunks = .error done) :
    submitChunkBody st now u i b session =
      (.mergeFailed,
       { recordStage st u i b { session with receivedChunks := recordIndex session.receivedChunks i } with
           final := insertA (finalNameFor now session.originalName) (done, now)
             (recordStage st u i b { session with receivedChunks := recordIndex session.receivedChunks i }).final }) := by
  simp only [submitChunkBody, mergeChunks]
  split
  · rw [herr]
  · next hcond => exact absurd h hcond

theorem sessionDir_eq_of_find {st : ServerState} {u : String} {d : SessionDir}
    (hd : findA u st.tmp = some d) : sessionDir st u = d := by
  rw [sessionDir, hd, Option.getD_some]

theorem writeSessionMeta_recordStage (st : ServerState) (u : String) (i : Nat) (b : Bytes)
    (s1 : Session) (d : SessionDir) (hd : findA u st.tmp = some d) :
    writeSessionMeta (recordStage st u i b s1) u s1 =
      { st with sessions := insertA u s1 st.sessions,
                tmp := insertA u { meta := some s1, chunks := insertA i b d.chunks } st.tmp } := by
  unfold writeSessionMeta recordStage storeChunk
  rw [sessionDir_eq_of_find hd]
  simp only [sessionDir, findA_insertA_self, Option.getD_some, insertA_insertA]

theorem recordStage_canonical (st : ServerState) (u : String) (i : Nat) (b : Bytes)
    (s1 : Session) (d : SessionDir) (hd : findA u st.tmp = some d) :
    recordStage st u i b s1 =
      { st with sessions := insertA u s1 st.sessions,
                tmp := insertA u { d with chunks := insertA i b d.chunks } st.tmp } := by
  unfold recordStage storeChunk
  rw [sessionDir_eq_of_find hd]

/-- Submitting a list of fresh, distinct chunk indices that does not reach the
completion threshold: every response reports `complete = false`, the received
set grows by exactly the submitted indices, the chunk files are all stored,
and the final area is untouched. -/
theorem submitRun_progress :
    ∀ (l : List (Nat × Bytes)) (st : ServerState) (now : Nat) (u : String) (s : Session)
      (d : SessionDir),
      findA u st.sessions = some s →
      findA u st.tmp = some d →
      (l.map Prod.fst).Nodup →
      (∀ p ∈ l, p.1 ∉ s.receivedChunks) →
      s.receivedChunks.length + l.length < s.totalChunks →
      ∃ r1,
        (submitRun st now u l).1.map resultComplete = List.replicate l.length (some false) ∧
        r1.Perm (s.receivedChunks ++ l.map Prod.fst) ∧
        findA u (submitRun st now u l).2.sessions = some { s with receivedChunks := r1 } ∧
        (∃ mt, findA u (submitRun st now u l).2.tmp =
          some { meta := mt, chunks := storeAll d.chunks l }) ∧
        (submitRun st now u l).2.final = st.final ∧
        (submitRun st now u l).2.liveStreams = st.liveStreams := by
  intro l
  induction l with
  | nil =>
    intro st now u s d h1 h2 _ _ _
    exact ⟨s.receivedChunks, rfl, by simp, h1, ⟨d.meta, h2⟩, rfl, rfl⟩
  | cons p rest ih =>
    intro st now u s d h1 h2 hnd hdisj hlen
    obtain ⟨i, b⟩ := p
    simp only [List.map_cons, List.nodup_cons] at hnd
    have hi_not : i ∉ s.receivedChunks := hdisj (i, b) (List.mem_cons_self _ _)
    have hlen1 : (recordIndex s.receivedChunks i).length = s.receivedChunks.length + 1 :=
      recordIndex_length_of_not_mem hi_not
    simp only [List.length_cons] at hlen
    have hne : ¬ (recordIndex s.receivedChunks i).length = s.totalChunks := by
      rw [hlen1]; omega
    have hstep : submitChunk st now u (some (i : Int)) (some b) =
        (.accepted i (recordIndex s.receivedChunks i).length s.totalChunks false none,
         { st with
             sessions := insertA u
               { s with receivedChunks := recordIndex s.receivedChunks i } st.sessions,
             tmp := insertA u
               { meta := some { s with receivedChunks := recordIndex s.receivedChunks i },
                 chunks := insertA i b d.chunks } st.tmp }) := by
      rw [submitChunk_natIdx, resolveSession_mem h1]
      show submitChunkBody st now u i b s = _
      rw [submitChunkBody_else st now u i b s hne]
      rw [writeSessionMeta_recordStage st u i b _ d h2]
    have hrun : submitRun st now u ((i, b) :: rest) =
        ((.accepted i (recordIndex s.receivedChunks i).length s.totalChunks false none) ::
           (submitRun
             { st with
                 sessions := insertA u
                   { s with receivedChunks := recordIndex s.receivedChunks i } st.sessions,
                 tmp := insertA u
                   { meta := some { s with receivedChunks := recordIndex s.receivedChunks i },
                     chunks := insertA i b d.chunks } st.tmp } now u rest).1,
         (submitRun
             { st with
                 sessions := insertA u
                   { s with receivedChunks := recordIndex s.receivedChunks i } st.sessions,
                 tmp := insertA u
                   { meta := some { s with receivedChunks := recordIndex s.receivedChunks i },
                     chunks := insertA i b d.chunks } st.tmp } now u rest).2) := by
      simp only [submitRun, hstep]
    obtain ⟨r2, hres, hperm, hsess, ⟨mt, htmp⟩, hfin, hlive⟩ :=
      ih { st with
             sessions := insertA u
               { s with receivedChunks := recordIndex s.receivedChunks i } st.sessions,
             tmp := insertA u
               { meta := some { s with receivedChunks := recordIndex s.receivedChunks i },
                 chunks := insertA i b d.chunks } st.tmp }
        now u { s with receivedChunks := recordIndex s.receivedChunks i }
        { meta := some { s with receivedChunks := recordIndex s.receivedChunks i },
          chunks := insertA i b d.chunks }
        (findA_insertA_self _ _ _) (findA_insertA_self _ _ _) hnd.2
        (by
          intro q hq hmem
          rcases (mem_recordIndex_iff s.receivedChunks i q.1).mp hmem with hin | hqi
          · exact hdisj q (List.mem_cons_of_mem _ hq) hin
          · exact hnd.1 (hqi ▸ List.mem_map_of_mem Prod.fst hq))
        (by
          simp only [hlen1]
          omega)
    refine ⟨r2, ?_, ?_, ?_, ⟨mt, ?_⟩, ?_, ?_⟩
    · rw [hrun]
      simp only [List.map_cons, hres, resultComplete, List.length_cons, List.replicate_succ]
    · refine hperm.trans ?_
      refine ((recordIndex_perm_of_not_mem hi_not).append_right _).trans ?_
      have heq : (s.receivedChunks ++ [i]) ++ List.map Prod.fst rest =
          s.receivedChunks ++ i :: List.map Prod.fst rest := by simp
      exact heq ▸ List.Perm.refl _
    · rw [hrun]
      exact hsess
    · rw [hrun]
      exact htmp
    · rw [hrun]
      exact hfin
    · rw [hrun]
      exact hlive

/-- Submitting a fresh chunk that brings the received count to `totalChunks`
triggers a successful merge: the artifact is written and the session is torn
down (registry entry and staging directory both removed). -/
theorem submitChunk_complete_ok (st : ServerState) (now : Nat) (u : String) (s : Session)
    (d : SessionDir) (i : Nat) (buf : Bytes) (pay : Nat → Bytes)
    (h1 : findA u st.sessions = some s) (h2 : findA u st.tmp = some d)
    (hu : s.uploadId = u) (hi_not : i ∉ s.receivedChunks)
    (hcnt : s.receivedChunks.length + 1 = s.totalChunks)
    (hpay : ∀ j, j < s.totalChunks → findA j (insertA i buf d.chunks) = some (pay j)) :
    submitChunk st now u (some (i : Int)) (some buf) =
      (.accepted i s.totalChunks s.totalChunks true (some (finalNameFor now s.originalName)),
       { st with sessions := eraseA u st.sessions,
                 tmp := eraseA u st.tmp,
                 final := insertA (finalNameFor now s.originalName)
                   (concatBytes ((List.range s.totalChunks).map pay), now) st.final }) := by
  subst hu
  have hlen : (recordIndex s.receivedChunks i).length = s.totalChunks := by
    rw [recordIndex_length_of_not_mem hi_not]
    exact hcnt
  have hcanon := recordStage_canonical st s.uploadId i buf
    { s with receivedChunks := recordIndex s.receivedChunks i } d h2
  have hdir : sessionDir (recordStage st s.uploadId i buf
      { s with receivedChunks := recordIndex s.receivedChunks i }) s.uploadId
      = { d with chunks := insertA i buf d.chunks } := by
    rw [hcanon]
    exact sessionDir_eq_of_find (findA_insertA_self _ _ _)
  have hmerge : mergeBytes (sessionDir (recordStage st s.uploadId i buf
      { s with receivedChunks := recordIndex s.receivedChunks i }) s.uploadId).chunks
      s.totalChunks = .ok (concatBytes ((List.range s.totalChunks).map pay)) := by
    rw [hdir]
    exact mergeBytes_ok_of_present _ pay _ hpay
  rw [submitChunk_natIdx, resolveSession_mem h1]
  show submitChunkBody st now s.uploadId i buf s = _
  rw [submitChunkBody_merge_ok st now s.uploadId i buf s _ hlen hmerge]
  rw [hlen, hcanon]
  simp only [eraseA_insertA]

theorem uploadInit_ok (st : ServerState) (u f : String) (sz N : Nat) (mt ca : String)
    (hf : ¬ f = "") (hfresh : findA u st.tmp = none) :
    uploadInit st u (some f) sz N mt ca =
      (.created u,
       { st with
           sessions := insertA u
             { uploadId := u, originalName := safeName f, totalSize := sz,
               totalChunks := N, mimeType := mt, createdAt := ca,
               receivedChunks := [] } st.sessions,
           tmp := insertA u
             { meta :=
                 some { uploadId := u, originalName := safeName f, totalSize := sz,
                        totalChunks := N, mimeType := mt, createdAt := ca,
                        receivedChunks := [] },
               chunks := [] } st.tmp }) := by
  simp only [uploadInit, if_neg hf, writeSessionMeta, sessionDir]
  rw [hfresh]
  rfl

theorem submitRun_append :
    ∀ (l₁ l₂ : List (Nat × Bytes)) (st : ServerState) (now : Nat) (u : String),
      submitRun st now u (l₁ ++ l₂) =
        ((submitRun st now u l₁).1 ++ (submitRun (submitRun st now u l₁).2 now u l₂).1,
         (submitRun (submitRun st now u l₁).2 now u l₂).2) := by
  intro l₁
  induction l₁ with
  | nil =>
    intro l₂ st now u
    rfl
  | cons p rest ih =>
    intro l₂ st now u
    obtain ⟨i, b⟩ := p
    simp only [List.cons_append, submitRun, List.append_eq, ih]

theorem findA_pair_head {α β : Type} [DecidableEq α] (p : α × β) (rest : List (α × β)) :
    findA p.1 (p :: rest) = some p.2 := by
  obtain ⟨a, b⟩ := p
  rw [findA_cons, if_pos rfl]

/-- The complete staged-upload scenario: init a session for `N` chunks on a
fresh upload id, then submit payloads for the indices `0 .. N-1` in an
arbitrary order.  The first `N-1` responses report `complete = false`, the
last response reports `complete = true` with the artifact name, the artifact
holds the index-ordered concatenation of the payloads, and the session is
fully torn down. -/
theorem uploadScenario (st0 : ServerState) (u fn mt ca : String) (sz N now : Nat)
    (l : List (Nat × Bytes)) (hfn : ¬ fn = "") (hfresh : findA u st0.tmp = none)
    (hperm : (l.map Prod.fst).Perm (List.range N)) (hN : 0 < N) :
    ∃ p rs st',
      l.getLast? = some p ∧
      submitRun (uploadInit st0 u (some fn) sz N mt ca).2 now u l = (rs, st') ∧
      rs.map resultComplete = List.replicate (N - 1) (some false) ++ [some true] ∧
      rs.getLast? = some (.accepted p.1 N N true (some (finalNameFor now (safeName fn)))) ∧
      st'.final = insertA (finalNameFor now (safeName fn))
        (concatBytes ((List.range N).map (payFn l)), now) st0.final ∧
      findA u st'.sessions = none ∧
      findA u st'.tmp = none ∧
      st'.liveStreams = st0.liveStreams := by
  have hlenl : l.length = N := by
    have h := hperm.length_eq
    simpa using h
  have hne : l ≠ [] := by
    intro h
    rw [h] at hlenl
    simp at hlenl
    omega
  have hndl : (l.map Prod.fst).Nodup := hperm.nodup_iff.mpr (List.nodup_range N)
  obtain ⟨p0, hlast⟩ : ∃ p, l.getLast? = some p :=
    ⟨l.getLast hne, List.getLast?_eq_getLast l hne⟩
  have hsplit : l.dropLast ++ [p0] = l := List.dropLast_append_getLast? p0 hlast
  obtain ⟨i0, b0⟩ := p0
  have hmapsplit : l.map Prod.fst = l.dropLast.map Prod.fst ++ [i0] := by
    conv_lhs => rw [← hsplit]
    rw [List.map_append]
    rfl
  have hnd1 : (l.dropLast.map Prod.fst).Nodup := by
    rw [hmapsplit] at hndl
    exact (List.nodup_append.mp hndl).1
  have hi0 : i0 ∉ l.dropLast.map Prod.fst := by
    rw [hmapsplit] at hndl
    intro hmem
    exact (List.nodup_append.mp hndl).2.2 hmem (List.mem_singleton_self i0)
  have hlen1 : l.dropLast.length = N - 1 := by
    rw [List.length_dropLast, hlenl]
  set sess : Session :=
    { uploadId := u, originalName := safeName fn, totalSize := sz,
      totalChunks := N, mimeType := mt, createdAt := ca,
      receivedChunks := [] } with hsess_def
  set st1 : ServerState :=
    { st0 with
        sessions := insertA u sess st0.sessions,
        tmp := insertA u { meta := some sess, chunks := [] } st0.tmp } with hst1_def
  have hinit : (uploadInit st0 u (some fn) sz N mt ca).2 = st1 := by
    rw [uploadInit_ok st0 u fn sz N mt ca hfn hfresh]
  have h1 : findA u st1.sessions = some sess := findA_insertA_self _ _ _
  have h2 : findA u st1.tmp = some { meta := some sess, chunks := [] } :=
    findA_insertA_self _ _ _
  obtain ⟨r1, hres1, hperm1, hsess1, ⟨mt1, htmp1⟩, hfin1, hlive1⟩ :=
    submitRun_progress l.dropLast st1 now u sess { meta := some sess, chunks := [] }
      h1 h2 hnd1
      (by
        intro q _ hmem
        simp [hsess_def] at hmem)
      (by
        simp only [hsess_def, List.length_nil, hlen1]
        omega)
  have hperm1' : r1.Perm (l.dropLast.map Prod.fst) := by
    have h := hperm1
    simp only [hsess_def] at h
    simpa using h
  have hr1len : r1.length = N - 1 := by
    rw [hperm1'.length_eq, List.length_map, hlen1]
  have hr1mem : i0 ∉ r1 := fun hmem => hi0 (hperm1'.mem_iff.mp hmem)
  have hpay : ∀ j, j < N →
      findA j (insertA i0 b0 (storeAll ([] : List (Nat × Bytes)) l.dropLast))
        = some (payFn l j) := by
    intro j hj
    by_cases hji : j = i0
    · subst hji
      rw [findA_insertA_self]
      have hnotin : findA j l.dropLast = none := (findA_eq_none_iff _ _).mpr hi0
      have hfl : findA j l = some b0 := by
        conv_lhs => rw [← hsplit]
        rw [findA_append_none _ hnotin]
        exact findA_pair_head (j, b0) []
      rw [payFn, hfl]
      rfl
    · rw [findA_insertA_ne _ _ hji]
      have hjl : j ∈ l.map Prod.fst := hperm.mem_iff.mpr (List.mem_range.mpr hj)
      have hj1 : j ∈ l.dropLast.map Prod.fst := by
        rw [hmapsplit] at hjl
        rcases List.mem_append.mp hjl with h | h
        · exact h
        · exact absurd (List.mem_singleton.mp h) hji
      obtain ⟨bj, hbj⟩ := findA_isSome_of_mem_keys hj1
      rw [findA_storeAll_some _ hnd1 hbj]
      have hfl : findA j l = some bj := by
        conv_lhs => rw [← hsplit]
        exact findA_append_some _ hbj
      rw [payFn, hfl]
      rfl
  have hstep := submitChunk_complete_ok (submitRun st1 now u l.dropLast).2 now u
    { sess with receivedChunks := r1 } { meta := mt1, chunks := storeAll [] l.dropLast }
    i0 b0 (payFn l) hsess1 htmp1 rfl hr1mem
    (by
      simp only [hsess_def, hr1len]
      omega)
    hpay
  have hrun : submitRun st1 now u l =
      ((submitRun st1 now u l.dropLast).1 ++
         [ChunkResult.accepted i0 N N true (some (finalNameFor now (safeName fn)))],
       { sessions := eraseA u (submitRun st1 now u l.dropLast).2.sessions,
         liveStreams := (submitRun st1 now u l.dropLast).2.liveStreams,
         tmp := eraseA u (submitRun st1 now u l.dropLast).2.tmp,
         final := insertA (finalNameFor now (safeName fn))
           (concatBytes ((List.range N).map (payFn l)), now)
           (submitRun st1 now u l.dropLast).2.final }) := by
    conv_lhs => rw [← hsplit]
    rw [submitRun_append]
    simp only [submitRun, hstep]
  simp only [hinit, hrun]
  refine ⟨(i0, b0), _, _, hlast, rfl, ?_, ?_, ?_, ?_, ?_, ?_⟩
  · rw [List.map_append, hres1]
    simp [resultComplete, hlen1]
  · exact List.getLast?_concat _
  · show insertA (finalNameFor now (safeName fn))
        (concatBytes ((List.range N).map (payFn l)), now)
        (submitRun st1 now u l.dropLast).2.final = _
    rw [hfin1, hst1_def]
  · exact findA_eraseA_self _ _
  · exact findA_eraseA_self _ _
  · show (submitRun st1 now u l.dropLast).2.liveStreams = st0.liveStreams
    rw [hlive1, hst1_def]

/-! ### Claim C1 -/

/-- Claim C1, counterexample to the degenerate case: for a session created
with `totalChunks = 0`, submitting its (zero) chunks performs no merge and
produces no artifact at all — the final area stays empty, so no empty
artifact exists, contradicting the claim that the `N = 0` case yields an
empty artifact. -/
theorem c1_counterexample_zero_chunks :
    (submitRun (uploadInit emptyState "u" (some "a.mp4") 0 0 "video/mp4" "t").2
        5 "u" []).2.final = [] ∧
    listFiles (submitRun (uploadInit emptyState "u" (some "a.mp4") 0 0 "video/mp4" "t").2
        5 "u" []).2 = [] := by
  constructor
  · decide
  · decide

/-- Claim C1 (amended): for every upload session with `totalChunks = N ≥ 1`
whose `N` chunks (indices `0 .. N-1`) are submitted in any arrival order and
with arbitrary payload sizes, the merge runs on the completing submission and
the final artifact's bytes are exactly the concatenation of the chunk
payloads in ascending index order.  (For `N = 0` no merge is ever triggered
and no artifact is produced; see the counterexample.) -/
theorem c1_amended_ordered_merge (st0 : ServerState) (u fn mt ca : String) (sz N now : Nat)
    (l : List (Nat × Bytes)) (hfn : ¬ fn = "") (hfresh : findA u st0.tmp = none)
    (hperm : (l.map Prod.fst).Perm (List.range N)) (hN : 0 < N) :
    ∃ p rs st',
      l.getLast? = some p ∧
      submitRun (uploadInit st0 u (some fn) sz N mt ca).2 now u l = (rs, st') ∧
      rs.getLast? = some (.accepted p.1 N N true (some (finalNameFor now (safeName fn)))) ∧
      findA (finalNameFor now (safeName fn)) st'.final
        = some (concatBytes ((List.range N).map (payFn l)), now) := by
  obtain ⟨p, rs, st', hla, hrun, _, hlastr, hfin, _, _, _⟩ :=
    uploadScenario st0 u fn mt ca sz N now l hfn hfresh hperm hN
  refine ⟨p, rs, st', hla, hrun, hlastr, ?_⟩
  rw [hfin]
  exact findA_insertA_self _ _ _

/-- Witness for the amended claim C1: a concrete three-chunk session whose
chunks arrive in the order 2, 0, 1 with different sizes. -/
theorem c1_amended_ordered_merge_witness :
    ∃ p rs st',
      ([((2 : Nat), ([30] : Bytes)), (0, [10, 11]), (1, [20])]).getLast? = some p ∧
      submitRun (uploadInit emptyState "u" (some "a.mp4") 6 3 "video/mp4" "t").2 7 "u"
          [(2, [30]), (0, [10, 11]), (1, [20])] = (rs, st') ∧
      rs.getLast? = some (.accepted p.1 3 3 true (some (finalNameFor 7 (safeName "a.mp4")))) ∧
      findA (finalNameFor 7 (safeName "a.mp4")) st'.final
        = some (concatBytes ((List.range 3).map
            (payFn [(2, [30]), (0, [10, 11]), (1, [20])])), 7) :=
  c1_amended_ordered_merge emptyState "u" "a.mp4" "video/mp4" "t" 6 3 7
    [(2, [30]), (0, [10, 11]), (1, [20])] (by decide) (by decide) (by decide) (by decide)

/-! ### Claim C2 -/

/-- Claim C2: for a session with `N ≥ 1` chunks submitted in any order, the
completion flag of the responses transitions from false to true exactly once
(the first `N-1` responses say `complete = false`, the last says
`complete = true`), so the merge runs exactly once; and after the teardown a
resubmission of any chunk (in particular the completing one) fails with
NotFound — the registry entry and the durable snapshot are both gone — and
does not change the state or re-trigger a merge. -/
theorem c2_completion_exactly_once (st0 : ServerState) (u fn mt ca : String) (sz N now : Nat)
    (l : List (Nat × Bytes)) (hfn : ¬ fn = "") (hfresh : findA u st0.tmp = none)
    (hperm : (l.map Prod.fst).Perm (List.range N)) (hN : 0 < N) :
    ∃ rs st',
      submitRun (uploadInit st0 u (some fn) sz N mt ca).2 now u l = (rs, st') ∧
      rs.map resultComplete = List.replicate (N - 1) (some false) ++ [some true] ∧
      ∀ (j : Int) (b : Bytes) (now2 : Nat), 0 ≤ j →
        submitChunk st' now2 u (some j) (some b) = (.notFound, st') := by
  obtain ⟨p, rs, st', _, hrun, hmap, _, _, hsessN, htmpN, _⟩ :=
    uploadScenario st0 u fn mt ca sz N now l hfn hfresh hperm hN
  refine ⟨rs, st', hrun, hmap, ?_⟩
  intro j b now2 hj
  have hmeta : readSessionMeta st' u = none := by
    rw [readSessionMeta, htmpN]
    rfl
  have hres := resolveSession_none hsessN hmeta
  simp only [submitChunk]
  rw [if_neg (Int.not_lt.mpr hj), hres]

/-- Witness for claim C2: the same concrete three-chunk session, with a
retry of the completing chunk afterwards. -/
theorem c2_completion_exactly_once_witness :
    ∃ rs st',
      submitRun (uploadInit emptyState "u" (some "a.mp4") 6 3 "video/mp4" "t").2 7 "u"
          [((2 : Nat), ([30] : Bytes)), (0, [10, 11]), (1, [20])] = (rs, st') ∧
      rs.map resultComplete = List.replicate 2 (some false) ++ [some true] ∧
      ∀ (j : Int) (b : Bytes) (now2 : Nat), 0 ≤ j →
        submitChunk st' now2 "u" (some j) (some b) = (.notFound, st') :=
  c2_completion_exactly_once emptyState "u" "a.mp4" "video/mp4" "t" 6 3 7
    [(2, [30]), (0, [10, 11]), (1, [20])] (by decide) (by decide) (by decide) (by decide)

/-! ### Claim C5 -/

theorem writeSessionMeta_recordStage_getD (st : ServerState) (u : String) (i : Nat) (b : Bytes)
    (s1 : Session) :
    writeSessionMeta (recordStage st u i b s1) u s1 =
      { st with sessions := insertA u s1 st.sessions,
                tmp := insertA u
                  { meta := some s1,
                    chunks := insertA i b (sessionDir st u).chunks } st.tmp } := by
  unfold writeSessionMeta recordStage storeChunk
  simp only [sessionDir, findA_insertA_self, Option.getD_some, insertA_insertA]

/-- Claim C5: chunk submission is idempotent.  When the (first) submission
does not complete the session, repeating the same `(uploadId, index, bytes)`
submission returns the same response and leaves the server state exactly as
after the first submission: the received set has the same size, the duplicate
index is not added twice, the stored chunk file is overwritten with identical
bytes, and therefore every artifact merged later is byte-identical. -/
theorem c5_idempotent_resubmission (st : ServerState) (now now2 : Nat) (u : String) (i : Int)
    (b : Bytes) (s : Session) (hs : findA u st.sessions = some s) (hi : 0 ≤ i)
    (hc : ¬ (recordIndex s.receivedChunks i.toNat).length = s.totalChunks) :
    submitChunk (submitChunk st now u (some i) (some b)).2 now2 u (some i) (some b)
      = submitChunk st now u (some i) (some b) ∧
    ∃ s1, findA u (submitChunk st now u (some i) (some b)).2.sessions = some s1 ∧
      s1.receivedChunks.length = (recordIndex s.receivedChunks i.toNat).length := by
  obtain ⟨n, rfl⟩ : ∃ m : Nat, (m : Int) = i := ⟨i.toNat, Int.toNat_of_nonneg hi⟩
  rw [Int.toNat_natCast] at hc
  have hfirst : submitChunk st now u (some (n : Int)) (some b) =
      (.accepted n (recordIndex s.receivedChunks n).length s.totalChunks false none,
       { st with
           sessions := insertA u
             { s with receivedChunks := recordIndex s.receivedChunks n } st.sessions,
           tmp := insertA u
             { meta := some { s with receivedChunks := recordIndex s.receivedChunks n },
               chunks := insertA n b (sessionDir st u).chunks } st.tmp }) := by
    rw [submitChunk_natIdx, resolveSession_mem hs]
    show submitChunkBody st now u n b s = _
    rw [submitChunkBody_else st now u n b s hc]
    rw [writeSessionMeta_recordStage_getD]
  have hsecond : submitChunk
      { st with
          sessions := insertA u
            { s with receivedChunks := recordIndex s.receivedChunks n } st.sessions,
          tmp := insertA u
            { meta := some { s with receivedChunks := recordIndex s.receivedChunks n },
              chunks := insertA n b (sessionDir st u).chunks } st.tmp } now2 u
      (some (n : Int)) (some b) =
      (.accepted n (recordIndex s.receivedChunks n).length s.totalChunks false none,
       { st with
           sessions := insertA u
             { s with receivedChunks := recordIndex s.receivedChunks n } st.sessions,
           tmp := insertA u
             { meta := some { s with receivedChunks := recordIndex s.receivedChunks n },
               chunks := insertA n b (sessionDir st u).chunks } st.tmp }) := by
    rw [submitChunk_natIdx, resolveSession_mem (findA_insertA_self _ _ _)]
    show submitChunkBody _ now2 u n b
        { s with receivedChunks := recordIndex s.receivedChunks n } = _
    have hmem : n ∈ recordIndex s.receivedChunks n := recordIndex_mem_self _ _
    have hagain :
        recordIndex ({ s with receivedChunks := recordIndex s.receivedChunks n } :
          Session).receivedChunks n = recordIndex s.receivedChunks n :=
      recordIndex_of_mem hmem
    have hc2 : ¬ (recordIndex ({ s with receivedChunks := recordIndex s.receivedChunks n } :
        Session).receivedChunks n).length =
        ({ s with receivedChunks := recordIndex s.receivedChunks n } :
          Session).totalChunks := by
      rw [hagain]
      exact hc
    rw [submitChunkBody_else _ now2 u n b _ hc2]
    rw [writeSessionMeta_recordStage_getD]
    rw [hagain]
    have hdir : sessionDir
        { st with
            sessions := insertA u
              { s with receivedChunks := recordIndex s.receivedChunks n } st.sessions,
            tmp := insertA u
              { meta := some { s with receivedChunks := recordIndex s.receivedChunks n },
                chunks := insertA n b (sessionDir st u).chunks } st.tmp } u =
        { meta := some { s with receivedChunks := recordIndex s.receivedChunks n },
          chunks := insertA n b (sessionDir st u).chunks } :=
      sessionDir_eq_of_find (findA_insertA_self _ _ _)
    rw [hdir]
    simp only [insertA_insertA]
  constructor
  · rw [hfirst]
    exact hsecond
  · refine ⟨{ s with receivedChunks := recordIndex s.receivedChunks n }, ?_, rfl⟩
    rw [hfirst]
    exact findA_insertA_self _ _ _

/-- Witness for claim C5: a concrete resubmission of chunk 0 to a fresh
two-chunk session. -/
theorem c5_idempotent_resubmission_witness :
    submitChunk
        (submitChunk
          (ServerState.mk
            [("u", Session.mk "u" "f" 4 2 "m" "t" [])] [] [] [])
          3 "u" (some 0) (some [7, 8])).2 4 "u" (some 0) (some [7, 8])
      = submitChunk
          (ServerState.mk
            [("u", Session.mk "u" "f" 4 2 "m" "t" [])] [] [] [])
          3 "u" (some 0) (some [7, 8]) ∧
    ∃ s1, findA "u" (submitChunk
        (ServerState.mk
          [("u", Session.mk "u" "f" 4 2 "m" "t" [])] [] [] [])
        3 "u" (some 0) (some [7, 8])).2.sessions = some s1 ∧
      s1.receivedChunks.length =
        (recordIndex ([] : List Nat) (Int.toNat 0)).length :=
  c5_idempotent_resubmission _ 3 4 "u" 0 [7, 8] (Session.mk "u" "f" 4 2 "m" "t" [])
    (by decide) (by decide) (by decide)

/-! ### Claim C8 -/

/-- Claim C8: the three failure modes of the chunk route are reported
immediately and without side effects.  A missing payload is rejected with the
InvalidArgument response `missingFile` (HTTP 400), a non-numeric or negative
index with the InvalidArgument response `invalidIndex` (HTTP 400), and a
session id with neither an in-memory record nor a durable snapshot with
NotFound (HTTP 404); in every case the returned state is exactly the input
state — no session state, chunk data or metadata is modified. -/
theorem c8_invalid_inputs_no_side_effects :
    (∀ (st : ServerState) (now : Nat) (u : String) (i : Option Int),
       submitChunk st now u i none = (.missingFile, st)) ∧
    (∀ (st : ServerState) (now : Nat) (u : String) (b : Bytes),
       submitChunk st now u none (some b) = (.invalidIndex, st)) ∧
    (∀ (st : ServerState) (now : Nat) (u : String) (j : Int) (b : Bytes), j < 0 →
       submitChunk st now u (some j) (some b) = (.invalidIndex, st)) ∧
    (∀ (st : ServerState) (now : Nat) (u : String) (j : Int) (b : Bytes), 0 ≤ j →
       findA u st.sessions = none → readSessionMeta st u = none →
       submitChunk st now u (some j) (some b) = (.notFound, st)) := by
  refine ⟨fun st now u i => rfl, fun st now u b => rfl,
    fun st now u j b hj => ?_, fun st now u j b hj h1 h2 => ?_⟩
  · simp only [submitChunk, if_pos hj]
  · simp only [submitChunk]
    rw [if_neg (Int.not_lt.mpr hj), resolveSession_none h1 h2]

/-- Witness for claim C8: all three failure modes on concrete inputs against
an empty server. -/
theorem c8_invalid_inputs_no_side_effects_witness :
    submitChunk emptyState 0 "u" (some 0) none = (.missingFile, emptyState) ∧
    submitChunk emptyState 0 "u" none (some [1]) = (.invalidIndex, emptyState) ∧
    submitChunk emptyState 0 "u" (some (-1)) (some [1]) = (.invalidIndex, emptyState) ∧
    submitChunk emptyState 0 "u" (some 2) (some [1]) = (.notFound, emptyState) :=
  ⟨c8_invalid_inputs_no_side_effects.1 emptyState 0 "u" (some 0),
   c8_invalid_inputs_no_side_effects.2.1 emptyState 0 "u" [1],
   c8_invalid_inputs_no_side_effects.2.2.1 emptyState 0 "u" (-1) [1] (by decide),
   c8_invalid_inputs_no_side_effects.2.2.2 emptyState 0 "u" 2 [1] (by decide) rfl rfl⟩

/-! ### Claim C10 -/

theorem resolveSession_inv {st : ServerState} {u : String} {s : Session} {st1 : ServerState}
    (h : resolveSession st u = some (s, st1)) :
    (findA u st.sessions = some s ∧ st1 = st) ∨
    (findA u st.sessions = none ∧ readSessionMeta st u = some s ∧
     st1 = { st with sessions := insertA u s st.sessions }) := by
  unfold resolveSession at h
  cases hf : findA u st.sessions with
  | some s' =>
    rw [hf] at h
    simp only [Option.some.injEq, Prod.mk.injEq] at h
    obtain ⟨hs', hst⟩ := h
    subst hs'
    exact Or.inl ⟨rfl, hst.symm⟩
  | none =>
    rw [hf] at h
    cases hm : readSessionMeta st u with
    | none =>
      rw [hm] at h
      simp at h
    | some m =>
      rw [hm] at h
      simp only [Option.some.injEq, Prod.mk.injEq] at h
      obtain ⟨hms, hst⟩ := h
      subst hms
      exact Or.inr ⟨rfl, rfl, hst.symm⟩

theorem uploadInit_sessions (st0 : ServerState) (u fn : String) (sz N : Nat) (mt ca : String)
    (hf : ¬ fn = "") :
    (uploadInit st0 u (some fn) sz N mt ca).2.sessions =
      insertA u
        { uploadId := u, originalName := safeName fn, totalSize := sz,
          totalChunks := N, mimeType := mt, createdAt := ca,
          receivedChunks := [] } st0.sessions := by
  simp only [uploadInit, if_neg hf, writeSessionMeta]

/-- Claim C10: a session declared with `totalChunks = 0` immediately reports
`complete = true` with an empty received list on the status route, yet no
merge is ever performed for it and no artifact is ever produced: the merge
only runs inside the chunk route, any chunk submission puts at least one
index into the received set, so the received count never equals 0 and the
completion branch is unreachable; every chunk submission for such a session
leaves the final area untouched, and the status route never writes to the
staging or final areas at all. -/
theorem c10_zero_totalChunks_never_merges :
    (∀ (st0 : ServerState) (u fn : String) (sz : Nat) (mt ca : String), ¬ fn = "" →
       (getStatus (uploadInit st0 u (some fn) sz 0 mt ca).2 u).1 =
         .ok { uploadId := u, totalChunks := 0, receivedChunks := [], complete := true }) ∧
    (∀ (st : ServerState) (now : Nat) (u : String) (idx : Option Int) (file : Option Bytes),
       (∀ s, findA u st.sessions = some s → s.totalChunks = 0) →
       (∀ m, readSessionMeta st u = some m → m.totalChunks = 0) →
       (submitChunk st now u idx file).2.final = st.final ∧
       resultMergeAttempt (submitChunk st now u idx file).1 = false) ∧
    (∀ (st : ServerState) (u : String),
       (getStatus st u).2.final = st.final ∧ (getStatus st u).2.tmp = st.tmp) := by
  refine ⟨?_, ?_, ?_⟩
  · intro st0 u fn sz mt ca hf
    have hs : findA u (uploadInit st0 u (some fn) sz 0 mt ca).2.sessions =
        some { uploadId := u, originalName := safeName fn, totalSize := sz,
               totalChunks := 0, mimeType := mt, createdAt := ca,
               receivedChunks := [] } := by
      rw [uploadInit_sessions st0 u fn sz 0 mt ca hf]
      exact findA_insertA_self _ _ _
    rw [getStatus, resolveSession_mem hs]
    rfl
  · intro st now u idx file hz1 hz2
    cases file with
    | none => exact ⟨rfl, rfl⟩
    | some b =>
      cases idx with
      | none => exact ⟨rfl, rfl⟩
      | some j =>
        by_cases hj : j < 0
        · simp only [submitChunk, if_pos hj]
          constructor <;> trivial
        · cases hres : resolveSession st u with
          | none =>
            simp only [submitChunk, if_neg hj, hres]
            constructor <;> trivial
          | some pair =>
            obtain ⟨s, st1⟩ := pair
            have hz : s.totalChunks = 0 := by
              rcases resolveSession_inv hres with ⟨hm, _⟩ | ⟨_, hm, _⟩
              · exact hz1 s hm
              · exact hz2 s hm
            have hf1 : st1.final = st.final := by
              rcases resolveSession_inv hres with ⟨_, he⟩ | ⟨_, _, he⟩
              · rw [he]
              · rw [he]
            have hne : ¬ (recordIndex s.receivedChunks j.toNat).length = s.totalChunks := by
              rw [hz]
              have := recordIndex_length_pos s.receivedChunks j.toNat
              omega
            simp only [submitChunk, if_neg hj, hres]
            rw [submitChunkBody_else st1 now u j.toNat b s hne]
            exact ⟨hf1, rfl⟩
  · intro st u
    cases hres : resolveSession st u with
    | none =>
      rw [getStatus, hres]
      exact ⟨rfl, rfl⟩
    | some pair =>
      obtain ⟨s, st1⟩ := pair
      rw [getStatus, hres]
      rcases resolveSession_inv hres with ⟨_, he⟩ | ⟨_, _, he⟩ <;> rw [he] <;> exact ⟨rfl, rfl⟩

/-- Witness for claim C10: a freshly created zero-chunk session reports
complete immediately, and a chunk submitted to a concrete zero-chunk session
does not merge and leaves the final area empty. -/
theorem c10_zero_totalChunks_never_merges_witness :
    (getStatus (uploadInit emptyState "u" (some "a.mp4") 0 0 "m" "t").2 "u").1 =
      .ok { uploadId := "u", totalChunks := 0, receivedChunks := [], complete := true } ∧
    (submitChunk (ServerState.mk [("u", Session.mk "u" "f" 9 0 "m" "t" [])] [] [] [])
        5 "u" (some 3) (some [9])).2.final = [] ∧
    resultMergeAttempt (submitChunk
        (ServerState.mk [("u", Session.mk "u" "f" 9 0 "m" "t" [])] [] [] [])
        5 "u" (some 3) (some [9])).1 = false := by
  refine ⟨c10_zero_totalChunks_never_merges.1 emptyState "u" "a.mp4" 0 "m" "t" (by decide),
    ?_, ?_⟩
  · exact (c10_zero_totalChunks_never_merges.2.1
      (ServerState.mk [("u", Session.mk "u" "f" 9 0 "m" "t" [])] [] [] [])
      5 "u" (some 3) (some [9])
      (fun s hs => by
        have h : some (Session.mk "u" "f" 9 0 "m" "t" []) = some s := hs
        cases h
        rfl)
      (fun m hm => by
        have h : (none : Option Session) = some m := hm
        cases h)).1
  · exact (c10_zero_totalChunks_never_merges.2.1
      (ServerState.mk [("u", Session.mk "u" "f" 9 0 "m" "t" [])] [] [] [])
      5 "u" (some 3) (some [9])
      (fun s hs => by
        have h : some (Session.mk "u" "f" 9 0 "m" "t" []) = some s := hs
        cases h
        rfl)
      (fun m hm => by
        have h : (none : Option Session) = some m := hm
        cases h)).2

/-! ### Claim C3 -/

theorem mergeLoop_isOk_of_present (chunks : List (Nat × Bytes)) :
    ∀ L : List Nat, (∀ i ∈ L, ∃ b, findA i chunks = some b) →
      ∃ bs, mergeLoop chunks L = .ok bs := by
  intro L
  induction L with
  | nil => intro _; exact ⟨[], rfl⟩
  | cons i rest ih =>
    intro h
    obtain ⟨b, hb⟩ := h i (List.mem_cons_self i rest)
    obtain ⟨tail, htail⟩ := ih (fun j hj => h j (List.mem_cons_of_mem i hj))
    refine ⟨b ++ tail, ?_⟩
    rw [mergeLoop, hb, htail]

theorem sessionDir_recordStage (st : ServerState) (u : String) (i : Nat) (b : Bytes)
    (s1 : Session) :
    sessionDir (recordStage st u i b s1) u =
      { sessionDir st u with chunks := insertA i b (sessionDir st u).chunks } := by
  unfold recordStage storeChunk
  exact sessionDir_eq_of_find (findA_insertA_self _ _ _)

/-- Claim C3, counterexample: out-of-range indices are accepted by the chunk
route, so the received count can reach `totalChunks` without the chunks
`0 .. totalChunks-1` all being present.  Submitting indices 5, 0, 1 to a
three-chunk session triggers the merge on the third submission, and the merge
then fails to find `chunk-2.part`: the chunk-missing error branch during
merge is reachable. -/
theorem c3_counterexample_out_of_range :
    (submitRun (ServerState.mk [("u", Session.mk "u" "f" 3 3 "m" "t" [])] [] [] [])
        7 "u" [(5, [9]), (0, [1]), (1, [2])]).1 =
      [.accepted 5 1 3 false none, .accepted 0 2 3 false none, .mergeFailed] := by
  decide

/-- Claim C3 (amended): whenever the merge is triggered — the recorded count
reaches `totalChunks` — and additionally every received index is in range
(below `totalChunks`), every chunk read of the merge finds a previously
written chunk file, and the chunk route completes with a successful merge:
the chunk-missing error branch is not taken.  (Without the in-range
hypothesis the branch is reachable; see the counterexample.) -/
theorem c3_amended_merge_reads_present (st : ServerState) (now : Nat) (u : String)
    (idx : Nat) (buf : Bytes) (s : Session) (st1 : ServerState)
    (hres : resolveSession st u = some (s, st1))
    (hu : s.uploadId = u)
    (hnodup : s.receivedChunks.Nodup)
    (hrange : ∀ j ∈ s.receivedChunks, j < s.totalChunks)
    (hidxrange : idx < s.totalChunks)
    (hpresent : ∀ j ∈ s.receivedChunks, ∃ b, findA j (sessionDir st1 u).chunks = some b)
    (htrigger : (recordIndex s.receivedChunks idx).length = s.totalChunks) :
    (∀ j, j < s.totalChunks →
       ∃ b, findA j (sessionDir (recordStage st1 u idx buf
         { s with receivedChunks := recordIndex s.receivedChunks idx }) u).chunks
           = some b) ∧
    ∃ st2, submitChunk st now u (some (idx : Int)) (some buf)
      = (.accepted idx s.totalChunks s.totalChunks true
          (some (finalNameFor now s.originalName)), st2) := by
  subst hu
  have hcover : ∀ j, j < s.totalChunks → j ∈ recordIndex s.receivedChunks idx := by
    refine mem_of_nodup_length_eq (recordIndex_nodup idx hnodup) ?_ htrigger
    intro j hj
    rcases (mem_recordIndex_iff s.receivedChunks idx j).mp hj with hj | hj
    · exact hrange j hj
    · exact hj ▸ hidxrange
  have hdirpresent : ∀ j, j < s.totalChunks →
      ∃ b, findA j (sessionDir (recordStage st1 s.uploadId idx buf
        { s with receivedChunks := recordIndex s.receivedChunks idx })
          s.uploadId).chunks = some b := by
    intro j hj
    rw [sessionDir_recordStage]
    by_cases hji : j = idx
    · subst hji
      exact ⟨buf, findA_insertA_self _ _ _⟩
    · rcases (mem_recordIndex_iff s.receivedChunks idx j).mp (hcover j hj) with hm | hm
      · obtain ⟨b, hb⟩ := hpresent j hm
        exact ⟨b, by rw [findA_insertA_ne _ _ hji]; exact hb⟩
      · exact absurd hm hji
  refine ⟨hdirpresent, ?_⟩
  obtain ⟨bs, hok⟩ := mergeLoop_isOk_of_present _ (List.range s.totalChunks)
    (fun j hj => hdirpresent j (List.mem_range.mp hj))
  refine ⟨{ recordStage st1 s.uploadId idx buf
      { s with receivedChunks := recordIndex s.receivedChunks idx } with
        final := insertA (finalNameFor now s.originalName) (bs, now)
          (recordStage st1 s.uploadId idx buf
            { s with receivedChunks := recordIndex s.receivedChunks idx }).final,
        tmp := eraseA s.uploadId
          (recordStage st1 s.uploadId idx buf
            { s with receivedChunks := recordIndex s.receivedChunks idx }).tmp,
        sessions := eraseA s.uploadId
          (recordStage st1 s.uploadId idx buf
            { s with receivedChunks := recordIndex s.receivedChunks idx }).sessions }, ?_⟩
  rw [submitChunk_natIdx, hres]
  show submitChunkBody st1 now s.uploadId idx buf s = _
  rw [submitChunkBody_merge_ok st1 now s.uploadId idx buf s bs htrigger hok, htrigger]

/-- Witness for the amended claim C3: a two-chunk session with chunk 0 staged
and in-range chunk 1 completing the upload; merge finds both chunks. -/
theorem c3_amended_merge_reads_present_witness :
    (∀ j, j < 2 →
       ∃ b, findA j (sessionDir (recordStage
         (ServerState.mk [("u", Session.mk "u" "f" 2 2 "m" "t" [0])] []
            [("u", SessionDir.mk (some (Session.mk "u" "f" 2 2 "m" "t" [0])) [(0, [5])])] [])
         "u" 1 [6] (Session.mk "u" "f" 2 2 "m" "t" (recordIndex [0] 1))) "u").chunks
           = some b) ∧
    ∃ st2, submitChunk
        (ServerState.mk [("u", Session.mk "u" "f" 2 2 "m" "t" [0])] []
           [("u", SessionDir.mk (some (Session.mk "u" "f" 2 2 "m" "t" [0])) [(0, [5])])] [])
        9 "u" (some ((1 : Nat) : Int)) (some [6])
      = (.accepted 1 2 2 true (some (finalNameFor 9 "f")), st2) :=
  c3_amended_merge_reads_present
    (ServerState.mk [("u", Session.mk "u" "f" 2 2 "m" "t" [0])] []
       [("u", SessionDir.mk (some (Session.mk "u" "f" 2 2 "m" "t" [0])) [(0, [5])])] [])
    9 "u" 1 [6] (Session.mk "u" "f" 2 2 "m" "t" [0])
    (ServerState.mk [("u", Session.mk "u" "f" 2 2 "m" "t" [0])] []
       [("u", SessionDir.mk (some (Session.mk "u" "f" 2 2 "m" "t" [0])) [(0, [5])])] [])
    (by decide) rfl (by decide) (by decide) (by decide)
    (fun j hj => by
      have hj0 : j = 0 := List.mem_singleton.mp hj
      subst hj0
      exact ⟨[5], by decide⟩)
    (by decide)

/-! ### Claim C4 -/

/-- Claim C4: when the merge triggered by a completing chunk submission fails
(a chunk read errors), the operation is atomic from the session's point of
view.  The handler rethrows (`mergeFailed` — completion is never reported),
the session stays in the registry with its full received set, no staging
chunk is purged and the durable snapshot is untouched; the partial output
file the failed merge leaves behind is never reported as the final artifact.
A subsequent re-submission of the completing chunk finds the session again,
reaches the merge branch and retries the merge (in this model the same chunk
is still missing, so the retry fails the same way rather than being rejected
with NotFound). -/
theorem c4_merge_failure_atomic_retryable (st : ServerState) (now : Nat) (u : String)
    (idx : Nat) (buf : Bytes) (s : Session) (st1 : ServerState) (done : Bytes)
    (hres : resolveSession st u = some (s, st1))
    (hu : s.uploadId = u)
    (htrigger : (recordIndex s.receivedChunks idx).length = s.totalChunks)
    (herr : mergeBytes (sessionDir (recordStage st1 u idx buf
        { s with receivedChunks := recordIndex s.receivedChunks idx }) u).chunks
        s.totalChunks = .error done) :
    ∃ st2,
      submitChunk st now u (some (idx : Int)) (some buf) = (.mergeFailed, st2) ∧
      findA u st2.sessions =
        some { s with receivedChunks := recordIndex s.receivedChunks idx } ∧
      (sessionDir st2 u).chunks = insertA idx buf (sessionDir st1 u).chunks ∧
      (sessionDir st2 u).meta = (sessionDir st1 u).meta ∧
      st2.final = insertA (finalNameFor now s.originalName) (done, now) st1.final ∧
      (∀ now2 : Nat,
        (submitChunk st2 now2 u (some (idx : Int)) (some buf)).1 = .mergeFailed) := by
  subst hu
  set s1 : Session := { s with receivedChunks := recordIndex s.receivedChunks idx }
    with hs1_def
  set stg : ServerState := recordStage st1 s.uploadId idx buf s1 with hstg_def
  set st2 : ServerState :=
    { stg with final := insertA (finalNameFor now s.originalName) (done, now) stg.final }
    with hst2_def
  have hbody : submitChunkBody st1 now s.uploadId idx buf s = (.mergeFailed, st2) :=
    submitChunkBody_merge_error st1 now s.uploadId idx buf s done htrigger herr
  have hdir1 : sessionDir stg s.uploadId =
      { sessionDir st1 s.uploadId with
          chunks := insertA idx buf (sessionDir st1 s.uploadId).chunks } :=
    sessionDir_recordStage st1 s.uploadId idx buf s1
  refine ⟨st2, ?_, ?_, ?_, ?_, ?_, ?_⟩
  · rw [submitChunk_natIdx, hres]
    exact hbody
  · exact findA_insertA_self _ _ _
  · exact congrArg SessionDir.chunks hdir1
  · show (sessionDir stg s.uploadId).meta = (sessionDir st1 s.uploadId).meta
    rw [hdir1]
  · rfl
  · intro now2
    have hsess2 : findA s.uploadId st2.sessions = some s1 := findA_insertA_self _ _ _
    rw [submitChunk_natIdx, resolveSession_mem hsess2]
    show (submitChunkBody st2 now2 s.uploadId idx buf s1).1 = _
    have hmem : idx ∈ recordIndex s.receivedChunks idx := recordIndex_mem_self _ _
    have htrigger2 : (recordIndex s1.receivedChunks idx).length = s1.totalChunks := by
      show (recordIndex (recordIndex s.receivedChunks idx) idx).length = s.totalChunks
      rw [recordIndex_of_mem hmem]
      exact htrigger
    rw [sessionDir_recordStage] at herr
    have herr2 : mergeBytes (sessionDir (recordStage st2 s.uploadId idx buf
        { s1 with receivedChunks := recordIndex s1.receivedChunks idx })
          s1.uploadId).chunks s1.totalChunks = .error done := by
      show mergeBytes (sessionDir (recordStage st2 s.uploadId idx buf
        { s1 with receivedChunks := recordIndex s1.receivedChunks idx })
          s.uploadId).chunks s.totalChunks = .error done
      rw [sessionDir_recordStage]
      have hd2 : sessionDir st2 s.uploadId = sessionDir stg s.uploadId := rfl
      rw [hd2, hdir1]
      show mergeBytes (insertA idx buf (insertA idx buf (sessionDir st1 s.uploadId).chunks))
        s.totalChunks = .error done
      rw [insertA_insertA]
      exact herr
    have hfinal := submitChunkBody_merge_error st2 now2 s.uploadId idx buf s1 done
      htrigger2 herr2
    rw [hfinal]

/-- Witness for claim C4: a one-chunk session completed by an out-of-range
chunk 5, so the merge looks for the missing `chunk-0.part` and fails; the
session and its staging survive and the retry re-runs the merge. -/
theorem c4_merge_failure_atomic_retryable_witness :
    ∃ st2,
      submitChunk (ServerState.mk [("u", Session.mk "u" "f" 1 1 "m" "t" [])] [] [] [])
          7 "u" (some ((5 : Nat) : Int)) (some [9]) = (.mergeFailed, st2) ∧
      findA "u" st2.sessions =
        some (Session.mk "u" "f" 1 1 "m" "t" (recordIndex [] 5)) ∧
      (sessionDir st2 "u").chunks = insertA 5 [9]
        (sessionDir (ServerState.mk [("u", Session.mk "u" "f" 1 1 "m" "t" [])] [] [] [])
          "u").chunks ∧
      (sessionDir st2 "u").meta =
        (sessionDir (ServerState.mk [("u", Session.mk "u" "f" 1 1 "m" "t" [])] [] [] [])
          "u").meta ∧
      st2.final = insertA (finalNameFor 7 "f") ([], 7)
        (ServerState.mk [("u", Session.mk "u" "f" 1 1 "m" "t" [])] [] [] []).final ∧
      (∀ now2 : Nat,
        (submitChunk st2 now2 "u" (some ((5 : Nat) : Int)) (some [9])).1 = .mergeFailed) :=
  c4_merge_failure_atomic_retryable
    (ServerState.mk [("u", Session.mk "u" "f" 1 1 "m" "t" [])] [] [] [])
    7 "u" 5 [9] (Session.mk "u" "f" 1 1 "m" "t" [])
    (ServerState.mk [("u", Session.mk "u" "f" 1 1 "m" "t" [])] [] [] []) []
    (by decide) rfl (by decide) (by rfl)

/-! ### Live stream lemmas -/

theorem sumLens_cons (b : Bytes) (rest : List Bytes) :
    sumLens (b :: rest) = b.length + sumLens rest := by
  simp [sumLens]

theorem streamInit_fresh (st : ServerState) (now : Nat) (newId : String)
    (fn mt : Option String)
    (hfresh : findA (finalNameFor now (fn.getD "live.webm")) st.final = none) :
    streamInit st now newId fn mt =
      (.created newId (finalNameFor now (fn.getD "live.webm")),
       { st with
           final := insertA (finalNameFor now (fn.getD "live.webm")) ([], now) st.final,
           liveStreams := insertA newId
             { streamId := newId, finalName := finalNameFor now (fn.getD "live.webm"),
               mimeType := mt.getD "video/webm", chunkCount := 0, bytesWritten := 0,
               startedAt := now } st.liveStreams }) := by
  simp only [streamInit]
  rw [hfresh]

/-- Appending a list of payloads to a registered live stream: the counters
grow by the number and total size of the payloads, and the stream's file
grows by their in-order concatenation. -/
theorem streamRun_spec :
    ∀ (l : List Bytes) (st : ServerState) (now : Nat) (sid : String) (s : LiveStream)
      (bs : Bytes) (m0 : Nat),
      findA sid st.liveStreams = some s →
      findA s.finalName st.final = some (bs, m0) →
      findA sid (streamRun st now sid l).2.liveStreams =
        some { s with chunkCount := s.chunkCount + l.length,
                      bytesWritten := s.bytesWritten + sumLens l } ∧
      ((streamRun st now sid l).2.final = st.final ∧ l = [] ∨
       (streamRun st now sid l).2.final =
         insertA s.finalName (bs ++ concatBytes l, now) st.final) ∧
      (streamRun st now sid l).2.sessions = st.sessions ∧
      (streamRun st now sid l).2.tmp = st.tmp := by
  intro l
  induction l with
  | nil =>
    intro st now sid s bs m0 h1 _
    exact ⟨h1, Or.inl ⟨rfl, rfl⟩, rfl, rfl⟩
  | cons b rest ih =>
    intro st now sid s bs m0 h1 h2
    have hstep : streamAppend st now sid (some b) =
        (.accepted (s.chunkCount + 1) (s.bytesWritten + b.length),
         { st with
             final := insertA s.finalName (bs ++ b, now) st.final,
             liveStreams := insertA sid
               { s with chunkCount := s.chunkCount + 1,
                        bytesWritten := s.bytesWritten + b.length } st.liveStreams }) := by
      simp only [streamAppend, h1]
      rw [h2]
      rfl
    have hrun : streamRun st now sid (b :: rest) =
        ((streamAppend st now sid (some b)).1 ::
           (streamRun (streamAppend st now sid (some b)).2 now sid rest).1,
         (streamRun (streamAppend st now sid (some b)).2 now sid rest).2) := rfl
    obtain ⟨ih1, ih2, ih3, ih4⟩ := ih
      { st with
          final := insertA s.finalName (bs ++ b, now) st.final,
          liveStreams := insertA sid
            { s with chunkCount := s.chunkCount + 1,
                     bytesWritten := s.bytesWritten + b.length } st.liveStreams }
      now sid
      { s with chunkCount := s.chunkCount + 1, bytesWritten := s.bytesWritten + b.length }
      (bs ++ b) now
      (findA_insertA_self _ _ _)
      (findA_insertA_self _ _ _)
    have hrec : LiveStream.mk s.streamId s.finalName s.mimeType
        (s.chunkCount + (b :: rest).length) (s.bytesWritten + sumLens (b :: rest)) s.startedAt
      = LiveStream.mk s.streamId s.finalName s.mimeType
        (s.chunkCount + 1 + rest.length) (s.bytesWritten + b.length + sumLens rest)
        s.startedAt := by
      rw [List.length_cons, sumLens_cons]
      have e1 : s.chunkCount + (rest.length + 1) = s.chunkCount + 1 + rest.length := by omega
      have e2 : s.bytesWritten + (b.length + sumLens rest)
          = s.bytesWritten + b.length + sumLens rest := by omega
      rw [e1, e2]
    refine ⟨?_, ?_, ?_, ?_⟩
    · rw [hrun, hstep]
      exact ih1.trans (congrArg some hrec.symm)
    · rw [hrun, hstep]
      rcases ih2 with ⟨hfe, hnil⟩ | hfe
      · subst hnil
        right
        refine hfe.trans ?_
        show insertA s.finalName (bs ++ b, now) st.final = _
        have hb : bs ++ b = bs ++ concatBytes [b] := by
          simp [concatBytes]
        rw [hb]
      · right
        refine hfe.trans ?_
        show insertA s.finalName ((bs ++ b) ++ concatBytes rest, now)
          (insertA s.finalName (bs ++ b, now) st.final) = _
        rw [insertA_insertA]
        have hb : (bs ++ b) ++ concatBytes rest = bs ++ concatBytes (b :: rest) := by
          rw [concatBytes, List.append_assoc]
        rw [hb]
    · rw [hrun, hstep]
      exact ih3
    · rw [hrun, hstep]
      exact ih4

/-! ### Claim C6 -/

/-- Claim C6: a live stream writes the appended payloads in call order, with
no index-based reordering.  After init (on a fresh artifact name) and the
appends `P1 .. Pk`, finish returns the artifact name together with
`bytesWritten` equal to the total appended size and `chunkCount = k`, the
artifact's bytes are exactly `P1 ++ ... ++ Pk`, and the live session is
removed: any later append or finish on that stream id fails with NotFound and
leaves the state unchanged. -/
theorem c6_live_append_order_and_finish (st0 : ServerState) (now nowA : Nat) (sid : String)
    (fn mt : Option String) (l : List Bytes)
    (hfresh : findA (finalNameFor now (fn.getD "live.webm")) st0.final = none) :
    (streamInit st0 now sid fn mt).1
      = .created sid (finalNameFor now (fn.getD "live.webm")) ∧
    ∃ st3,
      streamFinish (streamRun (streamInit st0 now sid fn mt).2 nowA sid l).2 sid
        = (.ok (finalNameFor now (fn.getD "live.webm")) (sumLens l) l.length, st3) ∧
      (∃ m, findA (finalNameFor now (fn.getD "live.webm")) st3.final
        = some (concatBytes l, m)) ∧
      (∀ (now2 : Nat) (b : Option Bytes), streamAppend st3 now2 sid b = (.notFound, st3)) ∧
      streamFinish st3 sid = (.notFound, st3) := by
  have hinit := streamInit_fresh st0 now sid fn mt hfresh
  refine ⟨by rw [hinit], ?_⟩
  simp only [hinit]
  obtain ⟨hls, hfin, _, _⟩ := streamRun_spec l
    { st0 with
        final := insertA (finalNameFor now (fn.getD "live.webm")) ([], now) st0.final,
        liveStreams := insertA sid
          { streamId := sid, finalName := finalNameFor now (fn.getD "live.webm"),
            mimeType := mt.getD "video/webm", chunkCount := 0, bytesWritten := 0,
            startedAt := now } st0.liveStreams }
    nowA sid
    { streamId := sid, finalName := finalNameFor now (fn.getD "live.webm"),
      mimeType := mt.getD "video/webm", chunkCount := 0, bytesWritten := 0,
      startedAt := now }
    [] now
    (findA_insertA_self _ _ _)
    (findA_insertA_self _ _ _)
  have hrec2 : LiveStream.mk sid (finalNameFor now (fn.getD "live.webm"))
      (mt.getD "video/webm") (0 + l.length) (0 + sumLens l) now
      = LiveStream.mk sid (finalNameFor now (fn.getD "live.webm"))
        (mt.getD "video/webm") l.length (sumLens l) now := by
    rw [Nat.zero_add, Nat.zero_add]
  have hls2 := hls.trans (congrArg some hrec2)
  have hfinEq : streamFinish
      (streamRun
        { st0 with
            final := insertA (finalNameFor now (fn.getD "live.webm")) ([], now) st0.final,
            liveStreams := insertA sid
              { streamId := sid, finalName := finalNameFor now (fn.getD "live.webm"),
                mimeType := mt.getD "video/webm", chunkCount := 0, bytesWritten := 0,
                startedAt := now } st0.liveStreams }
        nowA sid l).2 sid
      = (.ok (finalNameFor now (fn.getD "live.webm")) (sumLens l) l.length,
         { (streamRun
             { st0 with
                 final := insertA (finalNameFor now (fn.getD "live.webm")) ([], now) st0.final,
                 liveStreams := insertA sid
                   { streamId := sid, finalName := finalNameFor now (fn.getD "live.webm"),
                     mimeType := mt.getD "video/webm", chunkCount := 0, bytesWritten := 0,
                     startedAt := now } st0.liveStreams }
             nowA sid l).2 with
           liveStreams := eraseA sid
             (streamRun
               { st0 with
                   final := insertA (finalNameFor now (fn.getD "live.webm")) ([], now) st0.final,
                   liveStreams := insertA sid
                     { streamId := sid, finalName := finalNameFor now (fn.getD "live.webm"),
                       mimeType := mt.getD "video/webm", chunkCount := 0, bytesWritten := 0,
                       startedAt := now } st0.liveStreams }
               nowA sid l).2.liveStreams }) := by
    simp only [streamFinish, hls2]
  refine ⟨_, hfinEq, ?_, ?_, ?_⟩
  · rcases hfin with ⟨hf0, hl0⟩ | hf1
    · subst hl0
      refine ⟨now, ?_⟩
      show findA _ (streamRun _ nowA sid []).2.final = _
      rw [hf0]
      exact findA_insertA_self _ _ _
    · refine ⟨nowA, ?_⟩
      show findA _ (streamRun _ nowA sid l).2.final = _
      rw [hf1]
      exact findA_insertA_self _ _ _
  · intro now2 b
    simp only [streamAppend, findA_eraseA_self]
  · simp only [streamFinish, findA_eraseA_self]

/-- Witness for claim C6: two appends of different sizes to a concrete live
stream, then finish. -/
theorem c6_live_append_order_and_finish_witness :
    (streamInit emptyState 3 "s" none none).1
      = .created "s" (finalNameFor 3 "live.webm") ∧
    ∃ st3,
      streamFinish (streamRun (streamInit emptyState 3 "s" none none).2 4 "s"
          [[1, 2], [3]]).2 "s"
        = (.ok (finalNameFor 3 "live.webm") (sumLens [[1, 2], [3]]) 2, st3) ∧
      (∃ m, findA (finalNameFor 3 "live.webm") st3.final
        = some (concatBytes [[1, 2], [3]], m)) ∧
      (∀ (now2 : Nat) (b : Option Bytes), streamAppend st3 now2 "s" b = (.notFound, st3)) ∧
      streamFinish st3 "s" = (.notFound, st3) :=
  c6_live_append_order_and_finish emptyState 3 4 "s" none none [[1, 2], [3]] (by decide)

/-! ### Claim C9 -/

theorem listFiles_perm_cons {st' stOld : ServerState} {p : String × (Bytes × Nat)}
    (h : st'.final = p :: stOld.final) :
    (listFiles st').Perm (entryOf p :: listFiles stOld) := by
  unfold listFiles
  refine (sortLe_perm _ _).trans ?_
  rw [h, List.map_cons]
  exact List.Perm.cons _ (sortLe_perm _ _).symm

theorem resolveSession_preserves {st : ServerState} {u : String} {s : Session}
    {st1 : ServerState} (h : resolveSession st u = some (s, st1)) :
    st1.final = st.final ∧ st1.tmp = st.tmp ∧ st1.liveStreams = st.liveStreams := by
  rcases resolveSession_inv h with ⟨_, he⟩ | ⟨_, _, he⟩ <;> rw [he] <;> exact ⟨rfl, rfl, rfl⟩

theorem listFiles_perm_aux {f1 f0 : List (String × (Bytes × Nat))} {p : String × (Bytes × Nat)}
    (h : f1 = p :: f0) :
    (sortLe (fun a b => decide (b.modifiedAt ≤ a.modifiedAt)) (f1.map entryOf)).Perm
      (entryOf p :: sortLe (fun a b => decide (b.modifiedAt ≤ a.modifiedAt))
        (f0.map entryOf)) := by
  subst h
  refine (sortLe_perm _ _).trans ?_
  rw [List.map_cons]
  exact List.Perm.cons _ (sortLe_perm _ _).symm

/-- Claim C9: the catalog route returns one entry (name, size in bytes,
modification time) per file of the output area, sorted by modification time
descending; after a successful merge on a fresh artifact name the final area
holds exactly one new entry, carrying the returned artifact name and the size
of the merged bytes; and after a live init/append/finish run on a fresh
artifact name the final area holds exactly one new entry, carrying the
returned artifact name and a size equal to the bytes written. -/
theorem c9_catalog_lists_artifacts :
    (∀ st : ServerState,
       (listFiles st).Perm (st.final.map entryOf) ∧
       (listFiles st).Pairwise (fun a b => b.modifiedAt ≤ a.modifiedAt)) ∧
    (∀ (st : ServerState) (now : Nat) (u : String) (idx : Nat) (buf : Bytes) (s : Session)
       (st1 : ServerState) (bytes : Bytes),
       resolveSession st u = some (s, st1) →
       s.uploadId = u →
       (recordIndex s.receivedChunks idx).length = s.totalChunks →
       mergeBytes (sessionDir (recordStage st1 u idx buf
           { s with receivedChunks := recordIndex s.receivedChunks idx }) u).chunks
         s.totalChunks = .ok bytes →
       findA (finalNameFor now s.originalName) st.final = none →
       ∃ st2,
         submitChunk st now u (some (idx : Int)) (some buf)
           = (.accepted idx s.totalChunks s.totalChunks true
               (some (finalNameFor now s.originalName)), st2) ∧
         st2.final = (finalNameFor now s.originalName, (bytes, now)) :: st.final ∧
         (listFiles st2).Perm
           ({ name := finalNameFor now s.originalName, sizeBytes := bytes.length,
              modifiedAt := now } :: listFiles st)) ∧
    (∀ (st0 : ServerState) (now nowA : Nat) (sid : String) (fn mt : Option String)
       (l : List Bytes),
       findA (finalNameFor now (fn.getD "live.webm")) st0.final = none →
       ∃ st3 m,
         streamFinish (streamRun (streamInit st0 now sid fn mt).2 nowA sid l).2 sid
           = (.ok (finalNameFor now (fn.getD "live.webm")) (sumLens l) l.length, st3) ∧
         st3.final = (finalNameFor now (fn.getD "live.webm"), (concatBytes l, m)) :: st0.final ∧
         (listFiles st3).Perm
           ({ name := finalNameFor now (fn.getD "live.webm"), sizeBytes := sumLens l,
              modifiedAt := m } :: listFiles st0)) := by
  refine ⟨?_, ?_, ?_⟩
  · intro st
    constructor
    · exact sortLe_perm _ _
    · have hp := sortLe_pairwise (fun a b : FileEntry => decide (b.modifiedAt ≤ a.modifiedAt))
        (fun a b => by
          rcases Nat.le_total b.modifiedAt a.modifiedAt with h | h
          · exact Or.inl (decide_eq_true h)
          · exact Or.inr (decide_eq_true h))
        (fun a b c hab hbc =>
          decide_eq_true (Nat.le_trans (of_decide_eq_true hbc) (of_decide_eq_true hab)))
        (st.final.map entryOf)
      exact hp.imp (fun h => of_decide_eq_true h)
  · intro st now u idx buf s st1 bytes hres hu htrigger hok hfresh
    subst hu
    obtain ⟨hf1, _, _⟩ := resolveSession_preserves hres
    have hnone1 : findA (finalNameFor now s.originalName) st1.final = none := by
      rw [hf1]
      exact hfresh
    have hfe : insertA (finalNameFor now s.originalName) (bytes, now) st1.final
        = (finalNameFor now s.originalName, (bytes, now)) :: st.final := by
      rw [insertA_of_findA_none _ hnone1, hf1]
    refine ⟨{ recordStage st1 s.uploadId idx buf
        { s with receivedChunks := recordIndex s.receivedChunks idx } with
          final := insertA (finalNameFor now s.originalName) (bytes, now)
            (recordStage st1 s.uploadId idx buf
              { s with receivedChunks := recordIndex s.receivedChunks idx }).final,
          tmp := eraseA s.uploadId
            (recordStage st1 s.uploadId idx buf
              { s with receivedChunks := recordIndex s.receivedChunks idx }).tmp,
          sessions := eraseA s.uploadId
            (recordStage st1 s.uploadId idx buf
              { s with receivedChunks := recordIndex s.receivedChunks idx }).sessions },
      ?_, hfe, ?_⟩
    · rw [submitChunk_natIdx, hres]
      show submitChunkBody st1 now s.uploadId idx buf s = _
      rw [submitChunkBody_merge_ok st1 now s.uploadId idx buf s bytes htrigger hok, htrigger]
    · exact listFiles_perm_aux hfe
  · intro st0 now nowA sid fn mt l hfresh
    have hinit := streamInit_fresh st0 now sid fn mt hfresh
    simp only [hinit]
    obtain ⟨hls, hfin, _, _⟩ := streamRun_spec l
      { st0 with
          final := insertA (finalNameFor now (fn.getD "live.webm")) ([], now) st0.final,
          liveStreams := insertA sid
            { streamId := sid, finalName := finalNameFor now (fn.getD "live.webm"),
              mimeType := mt.getD "video/webm", chunkCount := 0, bytesWritten := 0,
              startedAt := now } st0.liveStreams }
      nowA sid
      { streamId := sid, finalName := finalNameFor now (fn.getD "live.webm"),
        mimeType := mt.getD "video/webm", chunkCount := 0, bytesWritten := 0,
        startedAt := now }
      [] now
      (findA_insertA_self _ _ _)
      (findA_insertA_self _ _ _)
    have hrec2 : LiveStream.mk sid (finalNameFor now (fn.getD "live.webm"))
        (mt.getD "video/webm") (0 + l.length) (0 + sumLens l) now
        = LiveStream.mk sid (finalNameFor now (fn.getD "live.webm"))
          (mt.getD "video/webm") l.length (sumLens l) now := by
      rw [Nat.zero_add, Nat.zero_add]
    have hls2 := hls.trans (congrArg some hrec2)
    have hfinEq : streamFinish
        (streamRun
          { st0 with
              final := insertA (finalNameFor now (fn.getD "live.webm")) ([], now) st0.final,
              liveStreams := insertA sid
                { streamId := sid, finalName := finalNameFor now (fn.getD "live.webm"),
                  mimeType := mt.getD "video/webm", chunkCount := 0, bytesWritten := 0,
                  startedAt := now } st0.liveStreams }
          nowA sid l).2 sid
        = (.ok (finalNameFor now (fn.getD "live.webm")) (sumLens l) l.length,
           { (streamRun
               { st0 with
                   final := insertA (finalNameFor now (fn.getD "live.webm")) ([], now)
                     st0.final,
                   liveStreams := insertA sid
                     { streamId := sid, finalName := finalNameFor now (fn.getD "live.webm"),
                       mimeType := mt.getD "video/webm", chunkCount := 0, bytesWritten := 0,
                       startedAt := now } st0.liveStreams }
               nowA sid l).2 with
             liveStreams := eraseA sid
               (streamRun
                 { st0 with
                     final := insertA (finalNameFor now (fn.getD "live.webm")) ([], now)
                       st0.final,
                     liveStreams := insertA sid
                       { streamId := sid,
                         finalName := finalNameFor now (fn.getD "live.webm"),
                         mimeType := mt.getD "video/webm", chunkCount := 0,
                         bytesWritten := 0, startedAt := now } st0.liveStreams }
                 nowA sid l).2.liveStreams }) := by
      simp only [streamFinish, hls2]
    rcases hfin with ⟨hf0, hl0⟩ | hf1
    · subst hl0
      have hfe : (streamRun
          { st0 with
              final := insertA (finalNameFor now (fn.getD "live.webm")) ([], now) st0.final,
              liveStreams := insertA sid
                { streamId := sid, finalName := finalNameFor now (fn.getD "live.webm"),
                  mimeType := mt.getD "video/webm", chunkCount := 0, bytesWritten := 0,
                  startedAt := now } st0.liveStreams }
          nowA sid []).2.final
          = (finalNameFor now (fn.getD "live.webm"), (concatBytes [], now)) :: st0.final := by
        rw [hf0]
        show insertA (finalNameFor now (fn.getD "live.webm")) ([], now) st0.final = _
        rw [insertA_of_findA_none _ hfresh]
        rfl
      refine ⟨_, now, hfinEq, hfe, ?_⟩
      exact listFiles_perm_aux hfe
    · have hfe : (streamRun
          { st0 with
              final := insertA (finalNameFor now (fn.getD "live.webm")) ([], now) st0.final,
              liveStreams := insertA sid
                { streamId := sid, finalName := finalNameFor now (fn.getD "live.webm"),
                  mimeType := mt.getD "video/webm", chunkCount := 0, bytesWritten := 0,
                  startedAt := now } st0.liveStreams }
          nowA sid l).2.final
          = (finalNameFor now (fn.getD "live.webm"), (concatBytes l, nowA)) :: st0.final := by
        rw [hf1]
        show insertA (finalNameFor now (fn.getD "live.webm")) ([] ++ concatBytes l, nowA)
          (insertA (finalNameFor now (fn.getD "live.webm")) ([], now) st0.final) = _
        rw [insertA_insertA, insertA_of_findA_none _ hfresh]
        rfl
      refine ⟨_, nowA, hfinEq, hfe, ?_⟩
      have hpc := listFiles_perm_aux hfe
      have hentry : entryOf (finalNameFor now (fn.getD "live.webm"), (concatBytes l, nowA))
          = { name := finalNameFor now (fn.getD "live.webm"), sizeBytes := sumLens l,
              modifiedAt := nowA } := by
        show ({ name := finalNameFor now (fn.getD "live.webm"),
                sizeBytes := (concatBytes l).length, modifiedAt := nowA } : FileEntry) = _
        rw [concatBytes_length]
      rw [← hentry]
      exact hpc

/-- Witness for claim C9: the catalog of the empty server, a concrete
one-chunk merge, and a concrete two-append live stream. -/
theorem c9_catalog_lists_artifacts_witness :
    ((listFiles emptyState).Perm (emptyState.final.map entryOf) ∧
     (listFiles emptyState).Pairwise (fun a b => b.modifiedAt ≤ a.modifiedAt)) ∧
    (∃ st2,
       submitChunk
           (ServerState.mk [("u", Session.mk "u" "f" 1 1 "m" "t" [])] []
             [("u", SessionDir.mk (some (Session.mk "u" "f" 1 1 "m" "t" [])) [])] [])
           7 "u" (some ((0 : Nat) : Int)) (some [3])
         = (.accepted 0 1 1 true (some (finalNameFor 7 "f")), st2) ∧
       st2.final = [(finalNameFor 7 "f", ([3], 7))] ∧
       (listFiles st2).Perm
         ({ name := finalNameFor 7 "f", sizeBytes := ([3] : Bytes).length,
            modifiedAt := 7 } ::
          listFiles (ServerState.mk [("u", Session.mk "u" "f" 1 1 "m" "t" [])] []
            [("u", SessionDir.mk (some (Session.mk "u" "f" 1 1 "m" "t" [])) [])] []))) ∧
    (∃ st3 m,
       streamFinish (streamRun (streamInit emptyState 3 "s" none none).2 4 "s"
           [[1], [2, 3]]).2 "s"
         = (.ok (finalNameFor 3 "live.webm") (sumLens [[1], [2, 3]]) 2, st3) ∧
       st3.final = [(finalNameFor 3 "live.webm", (concatBytes [[1], [2, 3]], m))] ∧
       (listFiles st3).Perm
         ({ name := finalNameFor 3 "live.webm", sizeBytes := sumLens [[1], [2, 3]],
            modifiedAt := m } :: listFiles emptyState)) :=
  ⟨c9_catalog_lists_artifacts.1 emptyState,
   c9_catalog_lists_artifacts.2.1
     (ServerState.mk [("u", Session.mk "u" "f" 1 1 "m" "t" [])] []
       [("u", SessionDir.mk (some (Session.mk "u" "f" 1 1 "m" "t" [])) [])] [])
     7 "u" 0 [3] (Session.mk "u" "f" 1 1 "m" "t" [])
     (ServerState.mk [("u", Session.mk "u" "f" 1 1 "m" "t" [])] []
       [("u", SessionDir.mk (some (Session.mk "u" "f" 1 1 "m" "t" [])) [])] [])
     [3] (by decide) rfl (by decide) (by rfl) rfl,
   c9_catalog_lists_artifacts.2.2 emptyState 3 4 "s" none none [[1], [2, 3]] (by decide)⟩

/-! ### Claim C7 -/

theorem digitChar_ne_dash (n : Nat) : Nat.digitChar n ≠ '-' := by
  by_cases h : n < 16
  · interval_cases n <;> decide
  · have h16 : 16 ≤ n := Nat.not_lt.mp h
    unfold Nat.digitChar
    iterate 16 rw [if_neg (by omega)]
    decide

theorem digitChar_val (n : Nat) (h : n < 10) : (Nat.digitChar n).toNat - 48 = n := by
  interval_cases n <;> rfl

theorem toDigitsCore_no_dash (b : Nat) :
    ∀ (fuel n : Nat) (ds : List Char), '-' ∉ ds → '-' ∉ Nat.toDigitsCore b fuel n ds := by
  intro fuel
  induction fuel with
  | zero => intro n ds h; exact h
  | succ f ih =>
    intro n ds h
    rw [Nat.toDigitsCore]
    by_cases h0 : n / b = 0
    · rw [if_pos h0]
      intro hmem
      rcases List.mem_cons.mp hmem with h1 | h1
      · exact digitChar_ne_dash (n % b) h1.symm
      · exact h h1
    · rw [if_neg h0]
      refine ih (n / b) (Nat.digitChar (n % b) :: ds) ?_
      intro hmem
      rcases List.mem_cons.mp hmem with h1 | h1
      · exact digitChar_ne_dash (n % b) h1.symm
      · exact h h1

theorem toDigitsCore_acc (b : Nat) :
    ∀ (fuel n : Nat) (ds : List Char),
      Nat.toDigitsCore b fuel n ds = Nat.toDigitsCore b fuel n [] ++ ds := by
  intro fuel
  induction fuel with
  | zero => intro n ds; rfl
  | succ f ih =>
    intro n ds
    rw [Nat.toDigitsCore, Nat.toDigitsCore]
    by_cases h0 : n / b = 0
    · rw [if_pos h0, if_pos h0]
      rfl
    · rw [if_neg h0, if_neg h0]
      rw [ih (n / b) (Nat.digitChar (n % b) :: ds), ih (n / b) [Nat.digitChar (n % b)]]
      rw [List.append_assoc]
      rfl

theorem parseDigits_append (xs : List Char) (c : Char) :
    parseDigits (xs ++ [c]) = parseDigits xs * 10 + (c.toNat - 48) := by
  unfold parseDigits
  rw [List.foldl_append]
  rfl

theorem parseDigits_toDigitsCore :
    ∀ (fuel n : Nat), n ≤ fuel → parseDigits (Nat.toDigitsCore 10 fuel n []) = n := by
  intro fuel
  induction fuel with
  | zero =>
    intro n h
    have h0 : n = 0 := Nat.le_zero.mp h
    subst h0
    rfl
  | succ f ih =>
    intro n h
    rw [Nat.toDigitsCore]
    by_cases h0 : n / 10 = 0
    · rw [if_pos h0]
      have hmod : n % 10 < 10 := Nat.mod_lt _ (by decide)
      have hdm := Nat.div_add_mod n 10
      have hlt : n < 10 := by
        rw [h0] at hdm
        omega
      show 0 * 10 + ((Nat.digitChar (n % 10)).toNat - 48) = n
      rw [digitChar_val (n % 10) (Nat.mod_lt _ (by decide))]
      rw [Nat.mod_eq_of_lt hlt]
      omega
    · rw [if_neg h0]
      rw [toDigitsCore_acc, parseDigits_append]
      have hnz : n ≠ 0 := fun hn => h0 (by simp [hn])
      have h2 : n / 10 < n := Nat.div_lt_self (by omega) (by decide)
      rw [ih (n / 10) (by omega), digitChar_val (n % 10) (Nat.mod_lt _ (by decide))]
      have h3 := Nat.div_add_mod n 10
      omega

theorem String_eq_of_data_eq {a b : String} (h : a.data = b.data) : a = b := by
  cases a
  cases b
  exact congrArg String.mk h

theorem Nat_repr_injective {n1 n2 : Nat} (h : Nat.repr n1 = Nat.repr n2) : n1 = n2 := by
  have hd : Nat.toDigitsCore 10 (n1 + 1) n1 [] = Nat.toDigitsCore 10 (n2 + 1) n2 [] := by
    have hq := congrArg String.data h
    exact hq
  have h1 := parseDigits_toDigitsCore (n1 + 1) n1 (by omega)
  have h2 := parseDigits_toDigitsCore (n2 + 1) n2 (by omega)
  rw [← h1, hd, h2]

theorem repr_data_no_dash (n : Nat) : '-' ∉ (Nat.repr n).data := by
  show '-' ∉ Nat.toDigitsCore 10 (n + 1) n []
  exact toDigitsCore_no_dash 10 (n + 1) n [] (by simp)

theorem append_dash_inj :
    ∀ (a b s t : List Char), '-' ∉ a → '-' ∉ b →
      a ++ '-' :: s = b ++ '-' :: t → a = b ∧ s = t := by
  intro a
  induction a with
  | nil =>
    intro b s t _ hb h
    cases b with
    | nil => simpa using h
    | cons c cs =>
      simp only [List.nil_append, List.cons_append, List.cons.injEq] at h
      exact absurd (h.1 ▸ List.mem_cons_self c cs) hb
  | cons c cs ih =>
    intro b s t ha hb h
    cases b with
    | nil =>
      simp only [List.nil_append, List.cons_append, List.cons.injEq] at h
      exact absurd (h.1.symm ▸ List.mem_cons_self c cs) ha
    | cons c2 cs2 =>
      simp only [List.cons_append, List.cons.injEq] at h
      have hrec := ih cs2 s t (fun hm => ha (List.mem_cons_of_mem c hm))
        (fun hm => hb (List.mem_cons_of_mem c2 hm)) h.2
      exact ⟨by rw [h.1, hrec.1], hrec.2⟩

theorem finalNameFor_inj_now {n1 n2 : Nat} {s1 s2 : String}
    (h : finalNameFor n1 s1 = finalNameFor n2 s2) : n1 = n2 := by
  have hdata := congrArg String.data h
  rw [finalNameFor, finalNameFor, String.data_append, String.data_append,
    String.data_append, String.data_append] at hdata
  rw [show String.data "-" = ['-'] from rfl] at hdata
  rw [List.append_assoc, List.append_assoc, List.singleton_append,
    List.singleton_append] at hdata
  have hsplit := append_dash_inj _ _ _ _ (repr_data_no_dash n1) (repr_data_no_dash n2) hdata
  exact Nat_repr_injective (String_eq_of_data_eq hsplit.1)

/-- Claim C7, counterexample: the disambiguator is `Date.now()`, which is not
unique across finalizations.  Two one-chunk uploads of the same filename
completed in the same millisecond (`now = 5`) both produce the artifact name
`5-a.mp4`; the second merge overwrites the first artifact, whose bytes `[1]`
are lost — the final area ends with a single entry holding `[2]`. -/
theorem c7_counterexample_same_millisecond :
    (submitChunk (ServerState.mk
        [("u1", Session.mk "u1" "a.mp4" 1 1 "m" "t" []),
         ("u2", Session.mk "u2" "a.mp4" 1 1 "m" "t" [])] [] [] [])
        5 "u1" (some 0) (some [1])).1
      = .accepted 0 1 1 true (some (finalNameFor 5 "a.mp4")) ∧
    (submitChunk (submitChunk (ServerState.mk
        [("u1", Session.mk "u1" "a.mp4" 1 1 "m" "t" []),
         ("u2", Session.mk "u2" "a.mp4" 1 1 "m" "t" [])] [] [] [])
        5 "u1" (some 0) (some [1])).2
        5 "u2" (some 0) (some [2])).1
      = .accepted 0 1 1 true (some (finalNameFor 5 "a.mp4")) ∧
    (submitChunk (submitChunk (ServerState.mk
        [("u1", Session.mk "u1" "a.mp4" 1 1 "m" "t" []),
         ("u2", Session.mk "u2" "a.mp4" 1 1 "m" "t" [])] [] [] [])
        5 "u1" (some 0) (some [1])).2
        5 "u2" (some 0) (some [2])).2.final
      = [(finalNameFor 5 "a.mp4", ([2], 5))] := by
  refine ⟨?_, ?_, ?_⟩ <;> decide

/-- Claim C7 (amended): every finalized artifact (merge or live init) is
named `<Date.now()>-<sanitizedOriginalName>`, and for two finalizations at
distinct clock values the names are distinct, so neither overwrites the
other (the earlier artifact is still found unchanged after the later write).
The code does not make the disambiguator unique by itself: finalizations of
the same filename within one millisecond collide and the later one
overwrites the earlier (see the counterexample). -/
theorem c7_amended_disambiguator (n1 n2 : Nat) (s1 s2 : String) (h : n1 ≠ n2) :
    finalNameFor n1 s1 = Nat.repr n1 ++ "-" ++ safeName s1 ∧
    finalNameFor n1 s1 ≠ finalNameFor n2 s2 ∧
    ∀ (f : List (String × (Bytes × Nat))) (v : Bytes × Nat),
      findA (finalNameFor n1 s1) (insertA (finalNameFor n2 s2) v f)
        = findA (finalNameFor n1 s1) f := by
  have hne : finalNameFor n1 s1 ≠ finalNameFor n2 s2 :=
    fun hh => h (finalNameFor_inj_now hh)
  exact ⟨rfl, hne, fun f v => findA_insertA_ne _ _ hne⟩

/-- Witness for the amended claim C7: merges at clock values 3 and 4 of the
same filename get distinct names and coexist. -/
theorem c7_amended_disambiguator_witness :
    finalNameFor 3 "a.mp4" = Nat.repr 3 ++ "-" ++ safeName "a.mp4" ∧
    finalNameFor 3 "a.mp4" ≠ finalNameFor 4 "a.mp4" ∧
    ∀ (f : List (String × (Bytes × Nat))) (v : Bytes × Nat),
      findA (finalNameFor 3 "a.mp4") (insertA (finalNameFor 4 "a.mp4") v f)
        = findA (finalNameFor 3 "a.mp4") f :=
  c7_amended_disambiguator 3 4 "a.mp4" "a.mp4" (by decide)
